import Mathlib

/-!
Verification of the fast-ecs engine (src/fastecs.hh, the active `namespace ecs`
implementation) against its natural-language specification.

The shallow embedding below mirrors the private state of
`ecs::Engine<System, Global, Event, Components...>`:

* `_entities : std::map<Entity, bool>`        -> `entities : List (Nat × Bool)`
  (a `std::map` is a key-sorted, key-unique association sequence);
* `_components_active / _components_inactive : std::tuple<std::vector<std::pair<Entity, C>>...>`
  -> `componentsActive / componentsInactive : Nat → List (Nat × α)`;
  component types are identified by their position in the `Components...` pack,
  so a component type is a natural number index here, and all component values
  share one value type `α` (the engine never inspects component values);
* `_named_entities : std::map<std::string, Entity>` -> `namedEntities`;
* `_debugging_info : std::map<Entity, std::string>` -> `debuggingInfo`;
* `_next_entity_id : size_t` -> `nextEntityId : Nat`, incremented modulo `2^64`
  because `size_t` arithmetic wraps.

Functions that throw `ecs::ECSError` (or `std::out_of_range` from `map::at`)
return `Except ECSError _`; every throwing path in the C++ code throws before
mutating, so a failed call leaves the engine unchanged, which `Engine.step`
makes explicit.
-/

namespace FastECS

/-- The error cases of the `ECSError` exceptions thrown by `fastecs.hh`,
distinguished the way their message strings distinguish them, plus
`outOfRange` for the raw `std::out_of_range` that `std::map::at` can raise. -/
inductive ECSError where
  | entityNotFound (id : Nat)
  | nameNotFound (s : String)
  | componentExists (t : Nat) (id : Nat)
  | componentNotFound (t : Nat) (id : Nat)
  | outOfRange
  deriving DecidableEq

/-- `EntityOrName`: `std::variant<Entity, std::string>` (fastecs.hh line 50). -/
inductive EntityOrName where
  | ent (id : Nat)
  | name (s : String)
  deriving DecidableEq

/-- First-match association lookup, the behaviour of `std::map::find` /
`std::map::at` on the key-unique maps the engine maintains. -/
def mapFind? [DecidableEq κ] (k : κ) : List (κ × β) → Option β
  | [] => none
  | p :: rest => if p.1 = k then some p.2 else mapFind? k rest

/-- Key-ordered insert-or-assign: the behaviour of `std::map::operator[] =`
and `std::map::insert_or_assign` (keys kept sorted and unique). -/
def mapInsert [LT κ] [DecidableEq κ] [∀ a b : κ, Decidable (a < b)]
    (k : κ) (v : β) : List (κ × β) → List (κ × β)
  | [] => [(k, v)]
  | p :: rest =>
    if k < p.1 then (k, v) :: p :: rest
    else if k = p.1 then (k, v) :: rest
    else p :: mapInsert k v rest

/-- `std::map::erase(key)`: drop the (unique) entry with the given key. -/
def mapErase [DecidableEq κ] (k : κ) : List (κ × β) → List (κ × β)
  | [] => []
  | p :: rest => if p.1 = k then rest else p :: mapErase k rest

/-- Assign through `std::map::at(key) = v`: replace the value stored at `k`,
leaving the key structure unchanged. -/
def mapAssign [DecidableEq κ] (k : κ) (v : β) : List (κ × β) → List (κ × β)
  | [] => []
  | p :: rest => if p.1 = k then (p.1, v) :: rest else p :: mapAssign k v rest

/-- `size_t` wraps modulo `2^64`. -/
def sizeTMod : Nat := 2 ^ 64

/-- The engine state: the private members of `ecs::Engine` (fastecs.hh
lines 281-287). -/
structure Engine (α : Type) where
  entities : List (Nat × Bool)
  componentsActive : Nat → List (Nat × α)
  componentsInactive : Nat → List (Nat × α)
  namedEntities : List (String × Nat)
  debuggingInfo : List (Nat × String)
  nextEntityId : Nat

/-- A freshly constructed engine: every member default-initialised
(fastecs.hh lines 281-287). -/
def emptyEngine : Engine α :=
  { entities := []
    componentsActive := fun _ => []
    componentsInactive := fun _ => []
    namedEntities := []
    debuggingInfo := []
    nextEntityId := 0 }

/-- `Engine::entity(EntityOrName)` (fastecs.hh lines 254-269): resolve a name
through `_named_entities` (throwing if absent), or check that a plain id is
registered in `_entities` (throwing if not). -/
def Engine.entity (e : Engine α) : EntityOrName → Except ECSError Nat
  | .name s =>
    match mapFind? s e.namedEntities with
    | some id => .ok id
    | none => .error (.nameNotFound s)
  | .ent id =>
    if (mapFind? id e.entities).isSome then .ok id
    else .error (.entityNotFound id)

/-- `_entities.at(id)`: the entity's active flag; `std::map::at` throws
`std::out_of_range` on a missing key. -/
def Engine.entitiesAt (e : Engine α) (id : Nat) : Except ECSError Bool :=
  match mapFind? id e.entities with
  | some b => .ok b
  | none => .error .outOfRange

/-- `Engine::comp_vec<C>(bool active)` (fastecs.hh lines 271-279): the
per-type association vector selected by the active flag. -/
def Engine.compVec (e : Engine α) (active : Bool) (t : Nat) : List (Nat × α) :=
  if active then e.componentsActive t else e.componentsInactive t

/-- Writing back the vector that `comp_vec` selected (the C++ code mutates it
through a reference). -/
def Engine.setCompVec (e : Engine α) (active : Bool) (t : Nat)
    (v : List (Nat × α)) : Engine α :=
  if active then
    { e with componentsActive := fun u => if u = t then v else e.componentsActive u }
  else
    { e with componentsInactive := fun u => if u = t then v else e.componentsInactive u }

/-- `std::lower_bound(begin(vec), end(vec), id, key-compare)`: the first index
whose key is not less than `id`. The linear recursion below computes exactly
that index on the sorted vectors the engine maintains, which is what the
binary search returns. -/
def lowerBound (vec : List (Nat × α)) (id : Nat) : Nat :=
  match vec with
  | [] => 0
  | p :: rest => if p.1 < id then lowerBound rest id + 1 else 0

/-- `std::vector::insert(begin() + i, x)`. -/
def insertAt (vec : List β) (i : Nat) (x : β) : List β :=
  match vec, i with
  | xs, 0 => x :: xs
  | [], _ + 1 => [x]
  | y :: ys, n + 1 => y :: insertAt ys n x

/-- `Engine::add_component<C>(ent, c)` (fastecs.hh lines 70-82): resolve the
entity, pick the vector for its current active flag, locate `id` by
`lower_bound`; if an entry with that id is already there, throw; otherwise
insert `(id, c)` at the located point and return the stored value. -/
def Engine.add_component (e : Engine α) (t : Nat) (ent : EntityOrName) (c : α) :
    Except ECSError (α × Engine α) :=
  match e.entity ent with
  | .error err => .error err
  | .ok id =>
    match e.entitiesAt id with
    | .error err => .error err
    | .ok act =>
      let vec := e.compVec act t
      let i := lowerBound vec id
      match vec[i]? with
      | some p =>
        if p.1 = id then .error (.componentExists t id)
        else .ok (c, e.setCompVec act t (insertAt vec i (id, c)))
      | none => .ok (c, e.setCompVec act t (insertAt vec i (id, c)))

/-- `Engine::component_ptr<C>(ent) const` (fastecs.hh lines 122-133): locate
`id` by `lower_bound` in the vector for the entity's active flag; return the
stored value if the located entry has that id, null otherwise. -/
def Engine.component_ptr (e : Engine α) (t : Nat) (ent : EntityOrName) :
    Except ECSError (Option α) :=
  match e.entity ent with
  | .error err => .error err
  | .ok id =>
    match e.entitiesAt id with
    | .error err => .error err
    | .ok act =>
      let vec := e.compVec act t
      let i := lowerBound vec id
      match vec[i]? with
      | some p => if p.1 = id then .ok (some p.2) else .ok none
      | none => .ok none

/-- `Engine::has_component<C>(ent)` (fastecs.hh lines 91-96):
`component_ptr<C>(ent) != nullptr`. -/
def Engine.has_component (e : Engine α) (t : Nat) (ent : EntityOrName) :
    Except ECSError Bool :=
  match e.component_ptr t ent with
  | .error err => .error err
  | .ok c => .ok c.isSome

/-- `Engine::component<C>(ent)` (fastecs.hh lines 105-113): `component_ptr`,
throwing `ECSError` (whose message re-resolves `entity(ent)`) when null. -/
def Engine.component (e : Engine α) (t : Nat) (ent : EntityOrName) :
    Except ECSError α :=
  match e.component_ptr t ent with
  | .error err => .error err
  | .ok (some v) => .ok v
  | .ok none =>
    match e.entity ent with
    | .error err => .error err
    | .ok id => .error (.componentNotFound t id)

/-- `Engine::remove_component<C>(ent)` (fastecs.hh lines 135-147): locate `id`
by `lower_bound`; erase the entry if it carries that id, else throw. -/
def Engine.remove_component (e : Engine α) (t : Nat) (ent : EntityOrName) :
    Except ECSError (Engine α) :=
  match e.entity ent with
  | .error err => .error err
  | .ok id =>
    match e.entitiesAt id with
    | .error err => .error err
    | .ok act =>
      let vec := e.compVec act t
      let i := lowerBound vec id
      match vec[i]? with
      | some p =>
        if p.1 = id then .ok (e.setCompVec act t (vec.eraseIdx i))
        else .error (.componentNotFound t id)
      | none => .error (.componentNotFound t id)

/-- Writing a value through the reference returned by `add_component`,
`component` or `component_ptr`: the reference denotes the slot that
`lower_bound` located in the vector selected by the entity's active flag, so
writing through it overwrites that slot's stored value in place. -/
def Engine.component_write (e : Engine α) (t : Nat) (ent : EntityOrName)
    (v : α) : Except ECSError (Engine α) :=
  match e.entity ent with
  | .error err => .error err
  | .ok id =>
    match e.entitiesAt id with
    | .error err => .error err
    | .ok act =>
      let vec := e.compVec act t
      let i := lowerBound vec id
      match vec[i]? with
      | some p =>
        if p.1 = id then .ok (e.setCompVec act t (vec.set i (id, v)))
        else .error (.componentNotFound t id)
      | none => .error (.componentNotFound t id)

/-- `Engine::add_entity(name)` (fastecs.hh lines 302-312): mint
`_next_entity_id++` (a wrapping `size_t`), register the entity as active, and
record the optional name by `insert_or_assign`. Returns the minted id. -/
def Engine.add_entity (e : Engine α) (name : Option String) : Nat × Engine α :=
  let ent := e.nextEntityId
  let e1 : Engine α :=
    { e with entities := mapInsert ent true e.entities
             nextEntityId := (e.nextEntityId + 1) % sizeTMod }
  match name with
  | some n => (ent, { e1 with namedEntities := mapInsert n ent e1.namedEntities })
  | none => (ent, e1)

/-- `Engine::is_entity_active(ent)` (fastecs.hh lines 314-318). -/
def Engine.is_entity_active (e : Engine α) (ent : EntityOrName) :
    Except ECSError Bool :=
  match e.entity ent with
  | .error err => .error err
  | .ok id => e.entitiesAt id

/-- `Engine::set_entity_active(ent, active)` (fastecs.hh lines 320-326):
assign the flag through `_entities.at(...)`; the component vectors are not
touched (the `TODO - move between component list` comment in the source). -/
def Engine.set_entity_active (e : Engine α) (ent : EntityOrName)
    (active : Bool) : Except ECSError (Engine α) :=
  match e.entity ent with
  | .error err => .error err
  | .ok id =>
    match e.entitiesAt id with
    | .error err => .error err
    | .ok _ => .ok { e with entities := mapAssign id active e.entities }

/-- `Engine::set_entity_debugging_info(ent, text)` (fastecs.hh lines 338-342). -/
def Engine.set_entity_debugging_info (e : Engine α) (ent : EntityOrName)
    (text : String) : Except ECSError (Engine α) :=
  match e.entity ent with
  | .error err => .error err
  | .ok id => .ok { e with debuggingInfo := mapInsert id text e.debuggingInfo }

/-- `Engine::remove_entity(ent)` (fastecs.hh lines 344-369): erase the id from
`_entities`; `std::remove_if` every entry carrying the id out of every
per-type vector, active and inactive; drop every name mapped to the id; erase
the debugging info. -/
def Engine.remove_entity (e : Engine α) (ent : EntityOrName) :
    Except ECSError (Engine α) :=
  match e.entity ent with
  | .error err => .error err
  | .ok id =>
    .ok { e with
      entities := mapErase id e.entities
      componentsActive := fun t =>
        (e.componentsActive t).filter (fun p => decide (p.1 ≠ id))
      componentsInactive := fun t =>
        (e.componentsInactive t).filter (fun p => decide (p.1 ≠ id))
      namedEntities := e.namedEntities.filter (fun p => decide (p.2 ≠ id))
      debuggingInfo := mapErase id e.debuggingInfo }

/-- The public mutating operations of the engine, as trace steps. -/
inductive Op (α : Type) where
  | addEntity (name : Option String)
  | setActive (ent : EntityOrName) (active : Bool)
  | removeEntity (ent : EntityOrName)
  | addComp (t : Nat) (ent : EntityOrName) (v : α)
  | removeComp (t : Nat) (ent : EntityOrName)
  | writeComp (t : Nat) (ent : EntityOrName) (v : α)
  | setDebugInfo (ent : EntityOrName) (text : String)

/-- A thrown `ECSError` leaves the engine unchanged (every throwing path in
the C++ methods throws before mutating). -/
def orKeep (e : Engine α) : Except ECSError (Engine α) → Engine α
  | .ok e' => e'
  | .error _ => e

/-- One public call against the engine. -/
def Engine.step (e : Engine α) : Op α → Engine α
  | .addEntity name => (e.add_entity name).2
  | .setActive ent a => orKeep e (e.set_entity_active ent a)
  | .removeEntity ent => orKeep e (e.remove_entity ent)
  | .addComp t ent v =>
    match e.add_component t ent v with
    | .ok r => r.2
    | .error _ => e
  | .removeComp t ent => orKeep e (e.remove_component t ent)
  | .writeComp t ent v => orKeep e (e.component_write t ent v)
  | .setDebugInfo ent s => orKeep e (e.set_entity_debugging_info ent s)

/-- Running a sequence of public calls. -/
def Engine.run (e : Engine α) : List (Op α) → Engine α
  | [] => e
  | op :: ops => (e.step op).run ops

/-- A store state reachable from a freshly constructed engine by public calls. -/
def Reachable (e : Engine α) : Prop :=
  ∃ ops : List (Op α), Engine.run emptyEngine ops = e

/-- The keys of an association vector, in order. -/
def keysOf (v : List (Nat × α)) : List Nat := v.map Prod.fst

/-- The sortedness invariant of a per-type association vector: entity ids
strictly ascending (hence unique). -/
def sortedKeys (v : List (Nat × α)) : Prop := (keysOf v).Pairwise (· < ·)

/-- The engine's internal well-formedness: `_entities` is a `std::map`
(key-sorted, key-unique) and every per-type vector, active and inactive, is
sorted strictly ascending by entity id. -/
structure Engine.WF (e : Engine α) : Prop where
  entKeys : (e.entities.map Prod.fst).Pairwise (· < ·)
  activeKeys : ∀ t, sortedKeys (e.componentsActive t)
  inactiveKeys : ∀ t, sortedKeys (e.componentsInactive t)

/-! ### Association-map lemmas -/

theorem sortedKeys_cons {q : Nat × α} {rest : List (Nat × α)} :
    sortedKeys (q :: rest) ↔
      (∀ a ∈ rest.map Prod.fst, q.1 < a) ∧ sortedKeys rest := by
  simp [sortedKeys, keysOf, List.pairwise_cons]

theorem mapFind?_eq_none [DecidableEq κ] (k : κ) (m : List (κ × β)) :
    mapFind? k m = none ↔ k ∉ m.map Prod.fst := by
  induction m with
  | nil => simp [mapFind?]
  | cons p rest ih =>
    rw [mapFind?]
    by_cases h : p.1 = k
    · simp [h]
    · simp [h, ih, Ne.symm h]

theorem mem_keys_mapInsert [LinearOrder κ] (k a : κ) (v : β) (m : List (κ × β))
    (h : a ∈ (mapInsert k v m).map Prod.fst) : a = k ∨ a ∈ m.map Prod.fst := by
  induction m with
  | nil => simpa [mapInsert] using h
  | cons p rest ih =>
    rw [mapInsert] at h
    by_cases h1 : k < p.1
    · rw [if_pos h1] at h
      simpa using h
    · rw [if_neg h1] at h
      by_cases h2 : k = p.1
      · rw [if_pos h2] at h
        rcases (by simpa using h : a = k ∨ a ∈ rest.map Prod.fst) with h | h
        · exact .inl h
        · exact .inr (by simp [h])
      · rw [if_neg h2] at h
        rcases (by simpa using h :
            a = p.1 ∨ a ∈ (mapInsert k v rest).map Prod.fst) with h | h
        · exact .inr (by simp [h])
        · rcases ih h with h | h
          · exact .inl h
          · exact .inr (by simp [h])

theorem keys_mapInsert_sorted [LinearOrder κ] (k : κ) (v : β) (m : List (κ × β))
    (h : (m.map Prod.fst).Pairwise (· < ·)) :
    ((mapInsert k v m).map Prod.fst).Pairwise (· < ·) := by
  induction m with
  | nil => simp [mapInsert]
  | cons p rest ih =>
    rw [List.map_cons, List.pairwise_cons] at h
    rw [mapInsert]
    by_cases h1 : k < p.1
    · rw [if_pos h1]
      simp only [List.map_cons, List.pairwise_cons]
      refine ⟨?_, h.1, h.2⟩
      intro a ha
      rcases List.mem_cons.mp ha with ha | ha
      · exact ha ▸ h1
      · exact lt_trans h1 (h.1 a ha)
    · by_cases h2 : k = p.1
      · rw [if_neg h1, if_pos h2]
        simp only [List.map_cons, List.pairwise_cons]
        exact ⟨fun a ha => h2 ▸ h.1 a ha, h.2⟩
      · rw [if_neg h1, if_neg h2]
        simp only [List.map_cons, List.pairwise_cons]
        refine ⟨?_, ih h.2⟩
        intro a ha
        rcases mem_keys_mapInsert k a v rest ha with ha | ha
        · subst ha
          exact lt_of_le_of_ne (not_lt.mp h1) (Ne.symm h2)
        · exact h.1 a ha

theorem mapErase_sublist [DecidableEq κ] (k : κ) (m : List (κ × β)) :
    List.Sublist (mapErase k m) m := by
  induction m with
  | nil => exact .refl []
  | cons p rest ih =>
    rw [mapErase]
    by_cases h : p.1 = k
    · rw [if_pos h]
      exact List.sublist_cons_self p rest
    · rw [if_neg h]
      exact List.Sublist.cons₂ p ih

theorem mapFind?_mapErase_self [DecidableEq κ] (k : κ) (m : List (κ × β))
    (h : (m.map Prod.fst).Nodup) : mapFind? k (mapErase k m) = none := by
  induction m with
  | nil => simp [mapErase, mapFind?]
  | cons p rest ih =>
    rw [List.map_cons, List.nodup_cons] at h
    by_cases h1 : p.1 = k
    · rw [mapErase, if_pos h1, mapFind?_eq_none]
      exact h1 ▸ h.1
    · rw [mapErase, if_neg h1, mapFind?, if_neg h1]
      exact ih h.2

theorem keys_mapAssign [DecidableEq κ] (k : κ) (v : β) (m : List (κ × β)) :
    (mapAssign k v m).map Prod.fst = m.map Prod.fst := by
  induction m with
  | nil => simp [mapAssign]
  | cons p rest ih =>
    rw [mapAssign]
    by_cases h : p.1 = k
    · rw [if_pos h]
      simp
    · rw [if_neg h]
      simp [ih]

theorem mapFind?_mapAssign_self [DecidableEq κ] (k : κ) (v : β)
    (m : List (κ × β)) (h : (mapFind? k m).isSome) :
    mapFind? k (mapAssign k v m) = some v := by
  induction m with
  | nil => simp [mapFind?] at h
  | cons p rest ih =>
    by_cases h1 : p.1 = k
    · simp [mapAssign, mapFind?, h1]
    · rw [mapFind?, if_neg h1] at h
      rw [mapAssign, if_neg h1, mapFind?, if_neg h1]
      exact ih h

/-! ### `lower_bound` and insertion lemmas -/

theorem lowerBound_le_length (vec : List (Nat × α)) (id : Nat) :
    lowerBound vec id ≤ vec.length := by
  induction vec with
  | nil => simp [lowerBound]
  | cons p rest ih =>
    rw [lowerBound]
    by_cases h : p.1 < id <;> simp [h, Nat.succ_le_succ ih]

theorem lowerBound_before_lt (vec : List (Nat × α)) (id : Nat) :
    ∀ j p, j < lowerBound vec id → vec[j]? = some p → p.1 < id := by
  induction vec with
  | nil => simp [lowerBound]
  | cons q rest ih =>
    intro j p hj hget
    rw [lowerBound] at hj
    by_cases h : q.1 < id
    · rw [if_pos h] at hj
      match j with
      | 0 =>
        rw [List.getElem?_cons_zero] at hget
        cases hget
        exact h
      | j + 1 =>
        rw [List.getElem?_cons_succ] at hget
        exact ih j p (Nat.lt_of_succ_lt_succ hj) hget
    · rw [if_neg h] at hj
      exact absurd hj (Nat.not_lt_zero j)

theorem lowerBound_at_ge (vec : List (Nat × α)) (id : Nat) :
    ∀ p, vec[lowerBound vec id]? = some p → id ≤ p.1 := by
  induction vec with
  | nil => simp
  | cons q rest ih =>
    intro p hget
    rw [lowerBound] at hget
    by_cases h : q.1 < id
    · rw [if_pos h, List.getElem?_cons_succ] at hget
      exact ih p hget
    · rw [if_neg h, List.getElem?_cons_zero] at hget
      cases hget
      exact Nat.le_of_not_lt h

/-- The entry `std::lower_bound` lands on, when the searched id is present in
a sorted vector, is exactly that id's entry. -/
theorem lowerBound_lookup_of_mem (vec : List (Nat × α)) (id : Nat) (w : α)
    (hs : sortedKeys vec) (hm : (id, w) ∈ vec) :
    vec[lowerBound vec id]? = some (id, w) := by
  induction vec with
  | nil => simp at hm
  | cons q rest ih =>
    rw [sortedKeys_cons] at hs
    rw [List.mem_cons] at hm
    rw [lowerBound]
    by_cases h : q.1 < id
    · rw [if_pos h, List.getElem?_cons_succ]
      rcases hm with hm | hm
      · rw [← hm] at h
        simp at h
      · exact ih hs.2 hm
    · rw [if_neg h, List.getElem?_cons_zero]
      rcases hm with hm | hm
      · rw [← hm]
      · exact absurd (hs.1 id (List.mem_map_of_mem Prod.fst hm)) h

theorem lowerBound_lookup_of_not_mem (vec : List (Nat × α)) (id : Nat)
    (hm : id ∉ vec.map Prod.fst) :
    ∀ p, vec[lowerBound vec id]? = some p → p.1 ≠ id := by
  intro p hget heq
  exact hm (by
    simpa [heq] using List.mem_map_of_mem Prod.fst (List.getElem?_mem hget))

/-- `vector::insert` at the `lower_bound` point splits the vector at the
first key not less than the inserted id. -/
theorem insertAt_lowerBound_eq (vec : List (Nat × α)) (id : Nat) (x : Nat × α) :
    insertAt vec (lowerBound vec id) x =
      vec.takeWhile (fun p => decide (p.1 < id)) ++
        x :: vec.dropWhile (fun p => decide (p.1 < id)) := by
  induction vec with
  | nil => simp [insertAt, lowerBound]
  | cons q rest ih =>
    rw [lowerBound]
    by_cases h : q.1 < id
    · rw [if_pos h]
      show q :: insertAt rest (lowerBound rest id) x = _
      rw [ih, List.takeWhile_cons, List.dropWhile_cons]
      simp [h]
    · rw [if_neg h]
      show x :: q :: rest = _
      rw [List.takeWhile_cons, List.dropWhile_cons]
      simp [h]

theorem mem_keys_insertAt_lowerBound (vec : List (Nat × α)) (id a : Nat)
    (c : α)
    (h : a ∈ (insertAt vec (lowerBound vec id) (id, c)).map Prod.fst) :
    a = id ∨ a ∈ vec.map Prod.fst := by
  rw [insertAt_lowerBound_eq] at h
  simp only [List.map_append, List.map_cons, List.mem_append, List.mem_cons] at h
  rcases h with h | h | h
  · exact .inr (List.map_subset Prod.fst (List.takeWhile_subset _) h)
  · exact .inl h
  · exact .inr (List.map_subset Prod.fst (List.dropWhile_subset _) h)

theorem sortedKeys_insertAt (vec : List (Nat × α)) (id : Nat) (c : α)
    (hs : sortedKeys vec) (hm : id ∉ vec.map Prod.fst) :
    sortedKeys (insertAt vec (lowerBound vec id) (id, c)) := by
  induction vec with
  | nil => simp [sortedKeys, keysOf, insertAt, lowerBound]
  | cons q rest ih =>
    rw [sortedKeys_cons] at hs
    rw [List.map_cons, List.mem_cons] at hm
    push_neg at hm
    rw [lowerBound]
    by_cases h : q.1 < id
    · rw [if_pos h]
      show sortedKeys (q :: insertAt rest (lowerBound rest id) (id, c))
      rw [sortedKeys_cons]
      constructor
      · intro a ha
        rcases mem_keys_insertAt_lowerBound rest id a c ha with ha | ha
        · exact ha ▸ h
        · exact hs.1 a ha
      · exact ih hs.2 hm.2
    · rw [if_neg h]
      show sortedKeys ((id, c) :: q :: rest)
      rw [sortedKeys_cons]
      have hqi : id < q.1 := lt_of_le_of_ne (Nat.le_of_not_lt h) hm.1
      refine ⟨?_, sortedKeys_cons.mpr hs⟩
      intro a ha
      rw [List.map_cons, List.mem_cons] at ha
      rcases ha with ha | ha
      · exact ha ▸ hqi
      · exact lt_trans hqi (hs.1 a ha)

/-- Erasing the entry `std::lower_bound` located (when it carries the searched
id) removes exactly the entries keyed by that id from a sorted vector. -/
theorem eraseIdx_lowerBound_eq_filter (vec : List (Nat × α)) (id : Nat)
    (p : Nat × α) (hs : sortedKeys vec)
    (hget : vec[lowerBound vec id]? = some p) (hp : p.1 = id) :
    vec.eraseIdx (lowerBound vec id) =
      vec.filter (fun q => decide (q.1 ≠ id)) := by
  induction vec with
  | nil => simp at hget
  | cons q rest ih =>
    rw [sortedKeys_cons] at hs
    rw [lowerBound] at hget ⊢
    by_cases h : q.1 < id
    · rw [if_pos h] at hget ⊢
      rw [List.getElem?_cons_succ] at hget
      rw [List.eraseIdx_cons_succ, List.filter_cons,
        if_pos (by simpa using Nat.ne_of_lt h), ih hs.2 hget]
    · rw [if_neg h] at hget ⊢
      rw [List.getElem?_cons_zero] at hget
      cases hget
      rw [List.eraseIdx_cons_zero, List.filter_cons, if_neg (by simp [hp])]
      rw [eq_comm, List.filter_eq_self]
      intro a ha
      have : id < a.1 := hp ▸ hs.1 a.1 (List.mem_map_of_mem Prod.fst ha)
      simpa using Nat.ne_of_gt this

theorem keys_set_of_key_eq (vec : List (Nat × α)) (i : Nat) (k : Nat)
    (x : α) (p : Nat × α) (hget : vec[i]? = some p) (hp : p.1 = k) :
    (vec.set i (k, x)).map Prod.fst = vec.map Prod.fst := by
  induction vec generalizing i with
  | nil => simp at hget
  | cons q rest ih =>
    match i with
    | 0 =>
      rw [List.getElem?_cons_zero] at hget
      cases hget
      simp [List.set, hp]
    | i + 1 =>
      rw [List.getElem?_cons_succ] at hget
      simp [List.set, ih i hget]

theorem lowerBound_keys_eq (v w : List (Nat × α)) (id : Nat)
    (h : v.map Prod.fst = w.map Prod.fst) :
    lowerBound v id = lowerBound w id := by
  induction v generalizing w with
  | nil => cases w <;> simp_all [lowerBound]
  | cons p rest ih =>
    cases w with
    | nil => simp at h
    | cons q rest2 =>
      rw [List.map_cons, List.map_cons, List.cons.injEq] at h
      rw [lowerBound, lowerBound, h.1, ih rest2 h.2]

/-! ### Engine well-formedness is preserved by every public call -/

theorem setCompVec_true_componentsActive (e : Engine α) (t : Nat)
    (v : List (Nat × α)) :
    (e.setCompVec true t v).componentsActive =
      fun u => if u = t then v else e.componentsActive u := rfl

theorem setCompVec_true_componentsInactive (e : Engine α) (t : Nat)
    (v : List (Nat × α)) :
    (e.setCompVec true t v).componentsInactive = e.componentsInactive := rfl

theorem setCompVec_false_componentsActive (e : Engine α) (t : Nat)
    (v : List (Nat × α)) :
    (e.setCompVec false t v).componentsActive = e.componentsActive := rfl

theorem setCompVec_false_componentsInactive (e : Engine α) (t : Nat)
    (v : List (Nat × α)) :
    (e.setCompVec false t v).componentsInactive =
      fun u => if u = t then v else e.componentsInactive u := rfl

theorem setCompVec_entities (e : Engine α) (act : Bool) (t : Nat)
    (v : List (Nat × α)) : (e.setCompVec act t v).entities = e.entities := by
  cases act <;> rfl

theorem setCompVec_namedEntities (e : Engine α) (act : Bool) (t : Nat)
    (v : List (Nat × α)) :
    (e.setCompVec act t v).namedEntities = e.namedEntities := by
  cases act <;> rfl

theorem setCompVec_nextEntityId (e : Engine α) (act : Bool) (t : Nat)
    (v : List (Nat × α)) :
    (e.setCompVec act t v).nextEntityId = e.nextEntityId := by
  cases act <;> rfl

theorem entity_setCompVec (e : Engine α) (act : Bool) (t : Nat)
    (v : List (Nat × α)) (ent : EntityOrName) :
    (e.setCompVec act t v).entity ent = e.entity ent := by
  cases act <;> cases ent <;> rfl

theorem entitiesAt_setCompVec (e : Engine α) (act : Bool) (t : Nat)
    (v : List (Nat × α)) (id : Nat) :
    (e.setCompVec act t v).entitiesAt id = e.entitiesAt id := by
  cases act <;> rfl

theorem compVec_setCompVec_self (e : Engine α) (act : Bool) (t : Nat)
    (v : List (Nat × α)) : (e.setCompVec act t v).compVec act t = v := by
  cases act <;> simp [Engine.setCompVec, Engine.compVec]

/-- The vector for the other activity flag is untouched by a write-back. -/
theorem compVec_setCompVec_other (e : Engine α) (act : Bool) (t : Nat)
    (v : List (Nat × α)) (u : Nat) :
    (e.setCompVec act t v).compVec (!act) u = e.compVec (!act) u := by
  cases act <;> simp [Engine.setCompVec, Engine.compVec]

theorem Engine.WF.compVecSorted {e : Engine α} (hw : e.WF) (act : Bool) (t : Nat) :
    sortedKeys (e.compVec act t) := by
  cases act
  · exact hw.inactiveKeys t
  · exact hw.activeKeys t

theorem WF_setCompVec {e : Engine α} (hw : e.WF) {act : Bool} {t : Nat}
    {v : List (Nat × α)} (hv : sortedKeys v) : (e.setCompVec act t v).WF := by
  cases act with
  | false =>
    refine ⟨hw.entKeys, hw.activeKeys, fun u => ?_⟩
    rw [setCompVec_false_componentsInactive]
    by_cases h : u = t
    · simpa [h] using hv
    · simpa [h] using hw.inactiveKeys u
  | true =>
    refine ⟨hw.entKeys, fun u => ?_, hw.inactiveKeys⟩
    rw [setCompVec_true_componentsActive]
    by_cases h : u = t
    · simpa [h] using hv
    · simpa [h] using hw.activeKeys u

theorem emptyEngine_WF : (emptyEngine : Engine α).WF :=
  ⟨by simp [emptyEngine], fun t => by simp [emptyEngine, sortedKeys, keysOf],
    fun t => by simp [emptyEngine, sortedKeys, keysOf]⟩

theorem WF_add_entity {e : Engine α} (hw : e.WF) (name : Option String) :
    (e.add_entity name).2.WF := by
  cases name with
  | none =>
    exact ⟨keys_mapInsert_sorted _ _ _ hw.entKeys, hw.activeKeys, hw.inactiveKeys⟩
  | some n =>
    exact ⟨keys_mapInsert_sorted _ _ _ hw.entKeys, hw.activeKeys, hw.inactiveKeys⟩

theorem WF_set_entity_active {e : Engine α} (hw : e.WF) {ent : EntityOrName}
    {a : Bool} {e' : Engine α} (h : e.set_entity_active ent a = .ok e') :
    e'.WF := by
  simp only [Engine.set_entity_active] at h
  cases h1 : e.entity ent with
  | error err => simp [h1] at h
  | ok id =>
    simp only [h1] at h
    cases h2 : e.entitiesAt id with
    | error err => simp [h2] at h
    | ok b =>
      simp only [h2] at h
      cases h
      exact ⟨by rw [keys_mapAssign]; exact hw.entKeys,
        hw.activeKeys, hw.inactiveKeys⟩

theorem WF_set_entity_debugging_info {e : Engine α} (hw : e.WF)
    {ent : EntityOrName} {s : String} {e' : Engine α}
    (h : e.set_entity_debugging_info ent s = .ok e') : e'.WF := by
  simp only [Engine.set_entity_debugging_info] at h
  cases h1 : e.entity ent with
  | error err => simp [h1] at h
  | ok id =>
    simp only [h1] at h
    cases h
    exact ⟨hw.entKeys, hw.activeKeys, hw.inactiveKeys⟩

theorem WF_remove_entity {e : Engine α} (hw : e.WF) {ent : EntityOrName}
    {e' : Engine α} (h : e.remove_entity ent = .ok e') : e'.WF := by
  simp only [Engine.remove_entity] at h
  cases h1 : e.entity ent with
  | error err => simp [h1] at h
  | ok id =>
    simp only [h1] at h
    cases h
    refine ⟨?_, fun t => ?_, fun t => ?_⟩
    · exact hw.entKeys.sublist ((mapErase_sublist id e.entities).map Prod.fst)
    · exact (hw.activeKeys t).sublist ((List.filter_sublist _).map Prod.fst)
    · exact (hw.inactiveKeys t).sublist ((List.filter_sublist _).map Prod.fst)

/-- A successful `add_component` can only have inserted an id that was not
yet present in the chosen vector. -/
theorem add_component_not_mem {e : Engine α} (hw : e.WF) {t : Nat}
    {ent : EntityOrName} {id : Nat} {act : Bool}
    (h1 : e.entity ent = .ok id) (h2 : e.entitiesAt id = .ok act)
    (hne : ∀ p : Nat × α,
      (e.compVec act t)[lowerBound (e.compVec act t) id]? = some p →
        p.1 ≠ id) :
    id ∉ (e.compVec act t).map Prod.fst := by
  intro hmem
  obtain ⟨⟨a, w⟩, hpw, ha⟩ := List.mem_map.mp hmem
  cases ha
  exact hne _ (lowerBound_lookup_of_mem _ _ _ (hw.compVecSorted act t) hpw) rfl

theorem WF_add_component {e : Engine α} (hw : e.WF) {t : Nat}
    {ent : EntityOrName} {c r : α} {e' : Engine α}
    (h : e.add_component t ent c = .ok (r, e')) : e'.WF := by
  simp only [Engine.add_component] at h
  cases h1 : e.entity ent with
  | error err => simp [h1] at h
  | ok id =>
    simp only [h1] at h
    cases h2 : e.entitiesAt id with
    | error err => simp [h2] at h
    | ok act =>
      simp only [h2] at h
      cases h3 : (e.compVec act t)[lowerBound (e.compVec act t) id]? with
      | none =>
        simp only [h3, Except.ok.injEq, Prod.mk.injEq] at h
        obtain ⟨hr, he⟩ := h
        subst he
        refine WF_setCompVec hw (sortedKeys_insertAt _ _ _
          (hw.compVecSorted act t) ?_)
        exact add_component_not_mem hw h1 h2
          (fun p hp => by rw [h3] at hp; cases hp)
      | some p =>
        simp only [h3] at h
        by_cases h4 : p.1 = id
        · simp [h4] at h
        · simp only [h4, if_false, Except.ok.injEq, Prod.mk.injEq] at h
          obtain ⟨hr, he⟩ := h
          subst he
          refine WF_setCompVec hw (sortedKeys_insertAt _ _ _
            (hw.compVecSorted act t) ?_)
          exact add_component_not_mem hw h1 h2
            (fun q hq => by rw [h3] at hq; cases hq; exact h4)

theorem WF_remove_component {e : Engine α} (hw : e.WF) {t : Nat}
    {ent : EntityOrName} {e' : Engine α}
    (h : e.remove_component t ent = .ok e') : e'.WF := by
  simp only [Engine.remove_component] at h
  cases h1 : e.entity ent with
  | error err => simp [h1] at h
  | ok id =>
    simp only [h1] at h
    cases h2 : e.entitiesAt id with
    | error err => simp [h2] at h
    | ok act =>
      simp only [h2] at h
      cases h3 : (e.compVec act t)[lowerBound (e.compVec act t) id]? with
      | none => simp [h3] at h
      | some p =>
        simp only [h3] at h
        by_cases h4 : p.1 = id
        · simp only [h4, if_true, if_pos rfl, Except.ok.injEq] at h
          subst h
          exact WF_setCompVec hw ((hw.compVecSorted act t).sublist
            ((List.eraseIdx_sublist _ _).map Prod.fst))
        · simp [h4] at h

theorem WF_component_write {e : Engine α} (hw : e.WF) {t : Nat}
    {ent : EntityOrName} {v : α} {e' : Engine α}
    (h : e.component_write t ent v = .ok e') : e'.WF := by
  simp only [Engine.component_write] at h
  cases h1 : e.entity ent with
  | error err => simp [h1] at h
  | ok id =>
    simp only [h1] at h
    cases h2 : e.entitiesAt id with
    | error err => simp [h2] at h
    | ok act =>
      simp only [h2] at h
      cases h3 : (e.compVec act t)[lowerBound (e.compVec act t) id]? with
      | none => simp [h3] at h
      | some p =>
        simp only [h3] at h
        by_cases h4 : p.1 = id
        · simp only [h4, if_true, if_pos rfl, Except.ok.injEq] at h
          subst h
          refine WF_setCompVec hw ?_
          show sortedKeys ((e.compVec act t).set _ (id, v))
          have hk := keys_set_of_key_eq (e.compVec act t)
            (lowerBound (e.compVec act t) id) id v p h3 h4
          show ((((e.compVec act t).set _ (id, v))).map Prod.fst).Pairwise (· < ·)
          rw [hk]
          exact hw.compVecSorted act t
        · simp [h4] at h

theorem WF_orKeep {e : Engine α} (hw : e.WF)
    (r : Except ECSError (Engine α))
    (h : ∀ e', r = .ok e' → e'.WF) : (orKeep e r).WF := by
  cases r with
  | ok e' => exact h e' rfl
  | error err => exact hw

theorem WF_step {e : Engine α} (hw : e.WF) (op : Op α) : (e.step op).WF := by
  cases op with
  | addEntity name => exact WF_add_entity hw name
  | setActive ent a =>
    exact WF_orKeep hw _ (fun e' h => WF_set_entity_active hw h)
  | removeEntity ent =>
    exact WF_orKeep hw _ (fun e' h => WF_remove_entity hw h)
  | addComp t ent v =>
    show (match e.add_component t ent v with
      | .ok r => r.2 | .error _ => e).WF
    cases h : e.add_component t ent v with
    | error err => exact hw
    | ok r =>
      obtain ⟨rv, e'⟩ := r
      exact WF_add_component hw h
  | removeComp t ent =>
    exact WF_orKeep hw _ (fun e' h => WF_remove_component hw h)
  | writeComp t ent v =>
    exact WF_orKeep hw _ (fun e' h => WF_component_write hw h)
  | setDebugInfo ent s =>
    exact WF_orKeep hw _ (fun e' h => WF_set_entity_debugging_info hw h)

theorem WF_run {e : Engine α} (hw : e.WF) (ops : List (Op α)) :
    (e.run ops).WF := by
  induction ops generalizing e with
  | nil => exact hw
  | cons op ops ih => exact ih (WF_step hw op)

/-- Every reachable engine state is well-formed. -/
theorem Reachable.wf {e : Engine α} (h : Reachable e) : e.WF := by
  obtain ⟨ops, rfl⟩ := h
  exact WF_run emptyEngine_WF ops

/-! ### The query engine: k-way sorted-merge intersection

`Engine::for_each` is only declared in the active source (fastecs.hh lines
167-171); no definition exists there, so the query algorithm is modelled from
the specification (spec section 4.2). -/

/-- Total length of a family of cursor lists (the termination measure and the
fuel bound for the merge loop). -/
def sumLen (ls : List (List Nat)) : Nat := (ls.map List.length).sum

/-- Modelled from the spec: "advance every cursor whose id is less than that
maximum (cursors never move backward)". -/
def advanceCursors (m : Nat) (ls : List (List Nat)) : List (List Nat) :=
  ls.map (fun l => if l.headD 0 < m then l.tail else l)

/-- Modelled from the spec: the k-way sorted-merge intersection loop of spec
section 4.2, which is the missing body of `for_each` (declared at fastecs.hh
lines 167-171). One cursor per required component type runs over that type's
sorted association list; each round reads the id under every cursor, computes
the maximum, advances every cursor whose id is smaller, stops as soon as a
cursor reaches its list's end, and when all cursors agree on one id records
that id as a match and advances every cursor past it. `fuel` bounds the number
of rounds; `intersectSorted` below supplies enough fuel for the loop to run to
completion. -/
def intersectFuel : Nat → List (List Nat) → List Nat
  | 0, _ => []
  | fuel + 1, ls =>
    if ls.isEmpty then []
    else if ls.any List.isEmpty then []
    else if (ls.map (fun l => l.headD 0)).all
        (fun x => x == (ls.map (fun l => l.headD 0)).foldl max 0) then
      ((ls.map (fun l => l.headD 0)).foldl max 0) :: intersectFuel fuel (ls.map List.tail)
    else
      intersectFuel fuel
        (advanceCursors ((ls.map (fun l => l.headD 0)).foldl max 0) ls)

/-- Modelled from the spec: the merge loop run to completion (the total
remaining length shrinks every round, so `sumLen ls + 1` rounds suffice). -/
def intersectSorted (ls : List (List Nat)) : List Nat :=
  intersectFuel (sumLen ls + 1) ls

theorem seed_le_foldl_max (l : List Nat) (a : Nat) : a ≤ l.foldl max a := by
  induction l generalizing a with
  | nil => simp
  | cons b t ih => exact le_trans (le_max_left a b) (ih (max a b))

theorem le_foldl_max (l : List Nat) (a x : Nat) (h : x ∈ l) :
    x ≤ l.foldl max a := by
  induction l generalizing a with
  | nil => simp at h
  | cons b t ih =>
    rcases List.mem_cons.mp h with h | h
    · subst h
      exact le_trans (le_max_right a x) (seed_le_foldl_max t (max a x))
    · exact ih (max a b) h

theorem foldl_max_mem (l : List Nat) (a : Nat) :
    l.foldl max a = a ∨ l.foldl max a ∈ l := by
  induction l generalizing a with
  | nil => exact .inl rfl
  | cons b t ih =>
    rw [List.foldl_cons]
    rcases ih (max a b) with h | h
    · rcases max_choice a b with hm | hm
      · exact .inl (h.trans hm)
      · exact .inr (by rw [h, hm]; exact List.mem_cons_self b t)
    · exact .inr (List.mem_cons_of_mem b h)

theorem foldl_max_zero_mem (l : List Nat) (h : l ≠ []) :
    l.foldl max 0 ∈ l := by
  cases l with
  | nil => exact absurd rfl h
  | cons b t =>
    rw [List.foldl_cons, Nat.zero_max]
    rcases foldl_max_mem t b with h | h
    · rw [h]; exact List.mem_cons_self b t
    · exact List.mem_cons_of_mem b h

theorem sumLen_cons (l : List Nat) (ls : List (List Nat)) :
    sumLen (l :: ls) = l.length + sumLen ls := by
  simp [sumLen]

theorem sumLen_map_le (f : List Nat → List Nat) (ls : List (List Nat))
    (h : ∀ l ∈ ls, (f l).length ≤ l.length) :
    sumLen (ls.map f) ≤ sumLen ls := by
  induction ls with
  | nil => simp [sumLen]
  | cons l rest ih =>
    rw [List.map_cons, sumLen_cons, sumLen_cons]
    exact Nat.add_le_add (h l (by simp))
      (ih (fun y hy => h y (List.mem_cons_of_mem l hy)))

theorem sumLen_map_lt (f : List Nat → List Nat) (ls : List (List Nat))
    (hle : ∀ l ∈ ls, (f l).length ≤ l.length)
    (hlt : ∃ l ∈ ls, (f l).length < l.length) :
    sumLen (ls.map f) < sumLen ls := by
  induction ls with
  | nil => simp at hlt
  | cons l rest ih =>
    rw [List.map_cons, sumLen_cons, sumLen_cons]
    obtain ⟨y, hy, hyl⟩ := hlt
    rcases List.mem_cons.mp hy with rfl | hy
    · have := sumLen_map_le f rest (fun z hz => hle z (List.mem_cons_of_mem y hz))
      omega
    · have h1 := hle l (by simp)
      have := ih (fun z hz => hle z (List.mem_cons_of_mem l hz)) ⟨y, hy, hyl⟩
      omega

theorem sorted_head_le {h : Nat} {t : List Nat}
    (hs : (h :: t).Pairwise (fun a b => a < b)) {a : Nat} (ha : a ∈ h :: t) :
    h ≤ a := by
  rw [List.pairwise_cons] at hs
  rcases List.mem_cons.mp ha with rfl | ha
  · exact le_refl a
  · exact le_of_lt (hs.1 a ha)

/-- Correctness of the merge loop: with enough fuel, on strictly sorted
cursor lists (at least one of them), the recorded matches are exactly the ids
common to every list. -/
theorem mem_intersectFuel (fuel : Nat) :
    ∀ ls : List (List Nat), sumLen ls < fuel → ls ≠ [] →
      (∀ l ∈ ls, l.Pairwise (fun a b => a < b)) →
      ∀ x, (x ∈ intersectFuel fuel ls ↔ ∀ l ∈ ls, x ∈ l) := by
  induction fuel with
  | zero =>
    intro ls h
    omega
  | succ fuel ih =>
    intro ls hfuel hne hsort x
    rw [intersectFuel]
    rw [if_neg (by simpa [List.isEmpty_iff] using hne)]
    by_cases hemp : ls.any List.isEmpty = true
    · rw [if_pos hemp]
      rw [List.any_eq_true] at hemp
      obtain ⟨l0, hl0, hl0e⟩ := hemp
      rw [List.isEmpty_iff] at hl0e
      subst hl0e
      constructor
      · intro h
        simp at h
      · intro h
        exact absurd (h [] hl0) (by simp)
    · rw [if_neg hemp]
      rw [List.any_eq_true] at hemp
      push_neg at hemp
      have hnonempty : ∀ l ∈ ls, l ≠ [] := by
        intro l hl hl0
        exact hemp l hl (by simp [hl0])
      have hheads : ∀ l ∈ ls, l = l.headD 0 :: l.tail := by
        intro l hl
        cases hl' : l with
        | nil => exact absurd hl' (hnonempty l hl)
        | cons a t => simp
      by_cases hall : (ls.map (fun l => l.headD 0)).all
          (fun y => y == (ls.map (fun l => l.headD 0)).foldl max 0) = true
      · rw [if_pos hall]
        rw [List.all_eq_true] at hall
        have hhead : ∀ l ∈ ls,
            l.headD 0 = (ls.map (fun l => l.headD 0)).foldl max 0 := by
          intro l hl
          exact beq_iff_eq.mp (hall (l.headD 0) (List.mem_map_of_mem _ hl))
        have hrec := ih (ls.map List.tail)
          (lt_of_lt_of_le
            (sumLen_map_lt List.tail ls
              (fun l _ => by rw [List.length_tail]; omega)
              ⟨ls.headD [], by
                cases ls with
                | nil => exact absurd rfl hne
                | cons l rest =>
                  refine ⟨List.mem_cons_self l rest, ?_⟩
                  have := hnonempty l (List.mem_cons_self l rest)
                  cases l with
                  | nil => exact absurd rfl this
                  | cons a t => simp⟩)
            (Nat.lt_succ_iff.mp hfuel))
          (by
            cases ls with
            | nil => exact absurd rfl hne
            | cons l rest => simp)
          (by
            intro l' hl'
            obtain ⟨l, hl, rfl⟩ := List.mem_map.mp hl'
            exact (hsort l hl).sublist (List.tail_sublist l))
          x
        rw [List.mem_cons, hrec]
        constructor
        · rintro (rfl | h)
          · intro l hl
            rw [hheads l hl, hhead l hl]
            exact List.mem_cons_self _ _
          · intro l hl
            rw [hheads l hl]
            exact List.mem_cons_of_mem _ (h l.tail (List.mem_map_of_mem _ hl))
        · intro h
          by_cases hx : x = (ls.map (fun l => l.headD 0)).foldl max 0
          · exact .inl hx
          · refine .inr ?_
            intro l' hl'
            obtain ⟨l, hl, rfl⟩ := List.mem_map.mp hl'
            have hxl := h l hl
            rw [hheads l hl, List.mem_cons] at hxl
            rcases hxl with hxl | hxl
            · exact absurd (hxl.trans (hhead l hl)) hx
            · exact hxl
      · rw [if_neg hall]
        rw [List.all_eq_true] at hall
        push_neg at hall
        obtain ⟨y, hy, hym⟩ := hall
        rw [ne_eq, beq_iff_eq] at hym
        obtain ⟨ly, hly, rfl⟩ := List.mem_map.mp hy
        have hylt : ly.headD 0 < (ls.map (fun l => l.headD 0)).foldl max 0 :=
          lt_of_le_of_ne (le_foldl_max _ 0 _ hy) hym
        have hadv : ∀ l ∈ ls,
            advanceCursors ((ls.map (fun l => l.headD 0)).foldl max 0) ls =
            ls.map (fun l => if l.headD 0 < (ls.map (fun l => l.headD 0)).foldl max 0
              then l.tail else l) := fun _ _ => rfl
        have hrec := ih
          (advanceCursors ((ls.map (fun l => l.headD 0)).foldl max 0) ls)
          (lt_of_lt_of_le
            (sumLen_map_lt _ ls
              (fun l _ => by
                by_cases hc : l.headD 0 < (ls.map (fun l => l.headD 0)).foldl max 0
                · rw [if_pos hc, List.length_tail]
                  omega
                · rw [if_neg hc])
              ⟨ly, hly, by
                rw [if_pos hylt, List.length_tail]
                have := hnonempty ly hly
                cases ly with
                | nil => exact absurd rfl this
                | cons a t => simp⟩)
            (Nat.lt_succ_iff.mp hfuel))
          (by
            cases ls with
            | nil => exact absurd rfl hne
            | cons l rest => simp [advanceCursors])
          (by
            intro l' hl'
            obtain ⟨l, hl, rfl⟩ := List.mem_map.mp hl'
            by_cases hc : l.headD 0 < (ls.map (fun l => l.headD 0)).foldl max 0
            · rw [if_pos hc]
              exact (hsort l hl).sublist (List.tail_sublist l)
            · rw [if_neg hc]
              exact hsort l hl)
          x
        rw [hrec]
        constructor
        · intro h l hl
          have hfl := h _ (List.mem_map_of_mem
            (fun l => if l.headD 0 < (ls.map (fun l => l.headD 0)).foldl max 0
              then l.tail else l) hl)
          by_cases hc : l.headD 0 < (ls.map (fun l => l.headD 0)).foldl max 0
          · rw [if_pos hc] at hfl
            exact List.mem_of_mem_tail hfl
          · rwa [if_neg hc] at hfl
        · intro h l' hl'
          obtain ⟨l, hl, rfl⟩ := List.mem_map.mp hl'
          by_cases hc : l.headD 0 < (ls.map (fun l => l.headD 0)).foldl max 0
          · rw [if_pos hc]
            have hm := foldl_max_zero_mem (ls.map (fun l => l.headD 0))
              (by
                cases ls with
                | nil => exact absurd rfl hne
                | cons a rest => simp)
            obtain ⟨lm, hlm, hlmh⟩ := List.mem_map.mp hm
            have hxm : (ls.map (fun l => l.headD 0)).foldl max 0 ≤ x := by
              rw [← hlmh]
              have hxlm := h lm hlm
              rw [hheads lm hlm] at hxlm
              exact sorted_head_le (by
                rw [← hheads lm hlm]
                exact hsort lm hlm) hxlm
            have hxl := h l hl
            rw [hheads l hl, List.mem_cons] at hxl
            rcases hxl with hxl | hxl
            · omega
            · exact hxl
          · rw [if_neg hc]
            exact h l hl
        
/-- The merge loop with the fuel `intersectSorted` supplies computes exactly
the common ids. -/
theorem mem_intersectSorted (ls : List (List Nat)) (hne : ls ≠ [])
    (hsort : ∀ l ∈ ls, l.Pairwise (fun a b => a < b)) (x : Nat) :
    x ∈ intersectSorted ls ↔ ∀ l ∈ ls, x ∈ l :=
  mem_intersectFuel (sumLen ls + 1) ls (Nat.lt_succ_self _) hne hsort x

/-- Modelled from the spec: the set of entity ids `for_each` over component
types `ts` visits (default behaviour, `include_inactive = false`): the merge
intersection run on the active per-type sorted key lists. -/
def Engine.forEachIds (e : Engine α) (ts : List Nat) : List Nat :=
  intersectSorted (ts.map (fun t => (e.componentsActive t).map Prod.fst))

/-! ### The event queue

`Engine::send_event` / `event_queue` are declared at fastecs.hh lines 192-197;
their behaviour is the old implementation's `send` / `events<T>` (fastecs.hh
lines 724-735): an append-only vector of tagged-union messages, read back
filtered by case. A message is modelled as the pair of its variant case index
and its payload. -/

/-- `send(Event ev)`: `_events.push_back(move(ev))` (fastecs.hh line 724). -/
def send_event (q : List (Nat × β)) (ev : Nat × β) : List (Nat × β) :=
  q ++ [ev]

/-- `events<T>()` (fastecs.hh lines 726-733): walk the queue front to back,
keeping the payload of every message holding alternative `T`. -/
def event_queue (t : Nat) : List (Nat × β) → List β
  | [] => []
  | ev :: evs =>
    if ev.1 = t then ev.2 :: event_queue t evs else event_queue t evs

theorem foldl_send_event (msgs : List (Nat × β)) :
    ∀ q : List (Nat × β), List.foldl send_event q msgs = q ++ msgs := by
  induction msgs with
  | nil => intro q; simp
  | cons m rest ih =>
    intro q
    rw [List.foldl_cons]
    rw [ih (send_event q m)]
    simp [send_event]

theorem event_queue_eq_filter_map (t : Nat) (q : List (Nat × β)) :
    event_queue t q = (q.filter (fun m => decide (m.1 = t))).map Prod.snd := by
  induction q with
  | nil => rfl
  | cons m rest ih =>
    rw [event_queue, List.filter_cons]
    by_cases h : m.1 = t
    · simp [h, ih]
    · simp [h, ih]

/-! ### Minted entity ids along a trace -/

/-- The number of `add_entity` calls in a trace. -/
def countAdds : List (Op α) → Nat
  | [] => 0
  | .addEntity _ :: ops => countAdds ops + 1
  | _ :: ops => countAdds ops

/-- The entity ids returned by the `add_entity` calls of a trace, in call
order. -/
def minted (e : Engine α) : List (Op α) → List Nat
  | [] => []
  | .addEntity name :: ops =>
    (e.add_entity name).1 :: minted (e.step (.addEntity name)) ops
  | op :: ops => minted (e.step op) ops

theorem nextEntityId_set_entity_active {e : Engine α} {ent : EntityOrName}
    {a : Bool} {e' : Engine α} (h : e.set_entity_active ent a = .ok e') :
    e'.nextEntityId = e.nextEntityId := by
  simp only [Engine.set_entity_active] at h
  cases h1 : e.entity ent with
  | error err => simp [h1] at h
  | ok id =>
    simp only [h1] at h
    cases h2 : e.entitiesAt id with
    | error err => simp [h2] at h
    | ok b =>
      simp only [h2] at h
      cases h
      rfl

theorem nextEntityId_remove_entity {e : Engine α} {ent : EntityOrName}
    {e' : Engine α} (h : e.remove_entity ent = .ok e') :
    e'.nextEntityId = e.nextEntityId := by
  simp only [Engine.remove_entity] at h
  cases h1 : e.entity ent with
  | error err => simp [h1] at h
  | ok id =>
    simp only [h1] at h
    cases h
    rfl

theorem nextEntityId_set_entity_debugging_info {e : Engine α}
    {ent : EntityOrName} {s : String} {e' : Engine α}
    (h : e.set_entity_debugging_info ent s = .ok e') :
    e'.nextEntityId = e.nextEntityId := by
  simp only [Engine.set_entity_debugging_info] at h
  cases h1 : e.entity ent with
  | error err => simp [h1] at h
  | ok id =>
    simp only [h1] at h
    cases h
    rfl

theorem nextEntityId_add_component {e : Engine α} {t : Nat}
    {ent : EntityOrName} {c r : α} {e' : Engine α}
    (h : e.add_component t ent c = .ok (r, e')) :
    e'.nextEntityId = e.nextEntityId := by
  simp only [Engine.add_component] at h
  cases h1 : e.entity ent with
  | error err => simp [h1] at h
  | ok id =>
    simp only [h1] at h
    cases h2 : e.entitiesAt id with
    | error err => simp [h2] at h
    | ok act =>
      simp only [h2] at h
      cases h3 : (e.compVec act t)[lowerBound (e.compVec act t) id]? with
      | none =>
        simp only [h3, Except.ok.injEq, Prod.mk.injEq] at h
        rw [<- h.2, setCompVec_nextEntityId]
      | some p =>
        simp only [h3] at h
        by_cases h4 : p.1 = id
        · simp [h4] at h
        · simp only [h4, if_false, Except.ok.injEq, Prod.mk.injEq] at h
          rw [<- h.2, setCompVec_nextEntityId]

theorem nextEntityId_remove_component {e : Engine α} {t : Nat}
    {ent : EntityOrName} {e' : Engine α}
    (h : e.remove_component t ent = .ok e') :
    e'.nextEntityId = e.nextEntityId := by
  simp only [Engine.remove_component] at h
  cases h1 : e.entity ent with
  | error err => simp [h1] at h
  | ok id =>
    simp only [h1] at h
    cases h2 : e.entitiesAt id with
    | error err => simp [h2] at h
    | ok act =>
      simp only [h2] at h
      cases h3 : (e.compVec act t)[lowerBound (e.compVec act t) id]? with
      | none => simp [h3] at h
      | some p =>
        simp only [h3] at h
        by_cases h4 : p.1 = id
        · simp only [h4, if_true, if_pos rfl, Except.ok.injEq] at h
          rw [<- h, setCompVec_nextEntityId]
        · simp [h4] at h

theorem nextEntityId_component_write {e : Engine α} {t : Nat}
    {ent : EntityOrName} {v : α} {e' : Engine α}
    (h : e.component_write t ent v = .ok e') :
    e'.nextEntityId = e.nextEntityId := by
  simp only [Engine.component_write] at h
  cases h1 : e.entity ent with
  | error err => simp [h1] at h
  | ok id =>
    simp only [h1] at h
    cases h2 : e.entitiesAt id with
    | error err => simp [h2] at h
    | ok act =>
      simp only [h2] at h
      cases h3 : (e.compVec act t)[lowerBound (e.compVec act t) id]? with
      | none => simp [h3] at h
      | some p =>
        simp only [h3] at h
        by_cases h4 : p.1 = id
        · simp only [h4, if_true, if_pos rfl, Except.ok.injEq] at h
          rw [<- h, setCompVec_nextEntityId]
        · simp [h4] at h

theorem step_nextEntityId_of_not_add (e : Engine α) (op : Op α)
    (hop : ∀ name, op ≠ Op.addEntity name) :
    (e.step op).nextEntityId = e.nextEntityId := by
  cases op with
  | addEntity name => exact absurd rfl (hop name)
  | setActive ent a =>
    show (orKeep e (e.set_entity_active ent a)).nextEntityId = _
    cases h1 : e.set_entity_active ent a with
    | error err => rfl
    | ok e' => exact nextEntityId_set_entity_active h1
  | removeEntity ent =>
    show (orKeep e (e.remove_entity ent)).nextEntityId = _
    cases h1 : e.remove_entity ent with
    | error err => rfl
    | ok e' => exact nextEntityId_remove_entity h1
  | addComp t ent v =>
    show (match e.add_component t ent v with
      | .ok r => r.2 | .error _ => e).nextEntityId = _
    cases h1 : e.add_component t ent v with
    | error err => rfl
    | ok r =>
      obtain ⟨rv, e'⟩ := r
      exact nextEntityId_add_component h1
  | removeComp t ent =>
    show (orKeep e (e.remove_component t ent)).nextEntityId = _
    cases h1 : e.remove_component t ent with
    | error err => rfl
    | ok e' => exact nextEntityId_remove_component h1
  | writeComp t ent v =>
    show (orKeep e (e.component_write t ent v)).nextEntityId = _
    cases h1 : e.component_write t ent v with
    | error err => rfl
    | ok e' => exact nextEntityId_component_write h1
  | setDebugInfo ent s =>
    show (orKeep e (e.set_entity_debugging_info ent s)).nextEntityId = _
    cases h1 : e.set_entity_debugging_info ent s with
    | error err => rfl
    | ok e' => exact nextEntityId_set_entity_debugging_info h1

theorem minted_cons_of_not_add (e : Engine α) (op : Op α) (rest : List (Op α))
    (h : ∀ name, op ≠ Op.addEntity name) :
    minted e (op :: rest) = minted (e.step op) rest := by
  cases op with
  | addEntity name => exact absurd rfl (h name)
  | setActive ent a => rfl
  | removeEntity ent => rfl
  | addComp t ent v => rfl
  | removeComp t ent => rfl
  | writeComp t ent v => rfl
  | setDebugInfo ent s => rfl

theorem countAdds_cons_of_not_add (op : Op α) (rest : List (Op α))
    (h : ∀ name, op ≠ Op.addEntity name) :
    countAdds (op :: rest) = countAdds rest := by
  cases op with
  | addEntity name => exact absurd rfl (h name)
  | setActive ent a => rfl
  | removeEntity ent => rfl
  | addComp t ent v => rfl
  | removeComp t ent => rfl
  | writeComp t ent v => rfl
  | setDebugInfo ent s => rfl

theorem minted_nil_of_countAdds_zero (ops : List (Op α)) :
    ∀ e : Engine α, countAdds ops = 0 → minted e ops = [] := by
  induction ops with
  | nil => intro e _; rfl
  | cons op rest ih =>
    intro e h
    by_cases hadd : ∃ name, op = Op.addEntity name
    · obtain ⟨name, rfl⟩ := hadd
      simp [countAdds] at h
    · push_neg at hadd
      rw [minted_cons_of_not_add e op rest hadd]
      rw [countAdds_cons_of_not_add op rest hadd] at h
      exact ih _ h

/-- As long as fewer than `2^64` ids in total are minted, the ids returned by
`add_entity` along any trace are strictly increasing. -/
theorem minted_pairwise_lt (ops : List (Op α)) :
    ∀ e : Engine α, e.nextEntityId + countAdds ops ≤ sizeTMod →
      List.Pairwise (fun a b => a < b) (minted e ops) ∧
      ∀ x ∈ minted e ops, e.nextEntityId ≤ x := by
  induction ops with
  | nil => exact fun e _ => ⟨List.Pairwise.nil, by simp [minted]⟩
  | cons op rest ih =>
    intro e h
    by_cases hadd : ∃ name, op = Op.addEntity name
    · obtain ⟨name, rfl⟩ := hadd
      have hmint : minted e (Op.addEntity name :: rest) =
          e.nextEntityId :: minted (e.step (Op.addEntity name)) rest := by
        cases name <;> rfl
      have hcnt : countAdds (Op.addEntity name :: rest) = countAdds rest + 1 :=
        rfl
      have hnext : (e.step (Op.addEntity name)).nextEntityId =
          (e.nextEntityId + 1) % sizeTMod := by
        cases name <;> rfl
      rw [hcnt] at h
      rw [hmint]
      by_cases hc : countAdds rest = 0
      · rw [minted_nil_of_countAdds_zero rest _ hc]
        exact ⟨by simp, by simp⟩
      · have hlt : e.nextEntityId + 1 < sizeTMod := by omega
        have hmod : (e.nextEntityId + 1) % sizeTMod = e.nextEntityId + 1 :=
          Nat.mod_eq_of_lt hlt
        have hih := ih (e.step (Op.addEntity name))
          (by rw [hnext, hmod]; omega)
        rw [hnext, hmod] at hih
        constructor
        · refine List.Pairwise.cons ?_ hih.1
          intro x hx
          have := hih.2 x hx
          omega
        · intro x hx
          rcases List.mem_cons.mp hx with rfl | hx
          · exact le_rfl
          · have := hih.2 x hx
            omega
    · push_neg at hadd
      rw [minted_cons_of_not_add e op rest hadd]
      rw [countAdds_cons_of_not_add op rest hadd] at h
      have hnext := step_nextEntityId_of_not_add e op hadd
      have hih := ih (e.step op) (by rw [hnext]; exact h)
      exact ⟨hih.1, fun x hx => hnext ▸ hih.2 x hx⟩

/-- `n` consecutive `add_entity` calls. -/
def addNTimes (e : Engine α) : Nat → Engine α
  | 0 => e
  | n + 1 => ((addNTimes e n).add_entity none).2

/-- The id an `add_entity` call returns is the current counter value. -/
theorem addNTimes_add_entity_fst (e : Engine α) (n : Nat) :
    ((addNTimes e n).add_entity none).1 = (addNTimes e n).nextEntityId := rfl

theorem addNTimes_nextEntityId (e : Engine α) (h : e.nextEntityId < sizeTMod) :
    ∀ n, (addNTimes e n).nextEntityId = (e.nextEntityId + n) % sizeTMod := by
  intro n
  induction n with
  | zero => simpa using (Nat.mod_eq_of_lt h).symm
  | succ n ih =>
    show (((addNTimes e n).add_entity none).2).nextEntityId = _
    have h1 : (((addNTimes e n).add_entity none).2).nextEntityId =
        ((addNTimes e n).nextEntityId + 1) % sizeTMod := rfl
    rw [h1, ih, Nat.mod_add_mod, Nat.add_assoc]

/-! ### Evaluation lemmas for the component operations -/

theorem exists_of_mem_keys {v : List (Nat × α)} {id : Nat}
    (h : id ∈ v.map Prod.fst) : ∃ w, (id, w) ∈ v := by
  obtain ⟨p, hm, hp⟩ := List.mem_map.mp h
  refine ⟨p.2, ?_⟩
  rw [<- hp]
  simpa using hm

theorem entity_ent_ok {e : Engine α} {id id2 : Nat}
    (h : e.entity (.ent id) = .ok id2) : id2 = id := by
  simp only [Engine.entity] at h
  by_cases hc : (mapFind? id e.entities).isSome
  · rw [if_pos hc] at h
    cases h
    rfl
  · rw [if_neg hc] at h
    cases h

theorem entity_ent_eval_of_registered {e : Engine α} {id : Nat}
    (h : (mapFind? id e.entities).isSome) : e.entity (.ent id) = .ok id := by
  simp [Engine.entity, h]

theorem entity_ent_eval_none {e : Engine α} {id : Nat}
    (h : mapFind? id e.entities = none) :
    e.entity (.ent id) = .error (.entityNotFound id) := by
  simp [Engine.entity, h]

theorem component_ptr_entity_error {e : Engine α} {t : Nat}
    {ent : EntityOrName} {err : ECSError} (h : e.entity ent = .error err) :
    e.component_ptr t ent = .error err := by
  simp [Engine.component_ptr, h]

theorem component_entity_error {e : Engine α} {t : Nat} {ent : EntityOrName}
    {err : ECSError} (h : e.entity ent = .error err) :
    e.component t ent = .error err := by
  simp [Engine.component, Engine.component_ptr, h]

theorem has_component_entity_error {e : Engine α} {t : Nat}
    {ent : EntityOrName} {err : ECSError} (h : e.entity ent = .error err) :
    e.has_component t ent = .error err := by
  simp [Engine.has_component, Engine.component_ptr, h]

theorem component_ptr_eval_some {e : Engine α} (hw : e.WF) {id : Nat}
    {act : Bool} {t : Nat} {ent : EntityOrName} {w : α}
    (h1 : e.entity ent = .ok id) (h2 : e.entitiesAt id = .ok act)
    (hm : (id, w) ∈ e.compVec act t) :
    e.component_ptr t ent = .ok (some w) := by
  have hget := lowerBound_lookup_of_mem _ _ _ (hw.compVecSorted act t) hm
  simp [Engine.component_ptr, h1, h2, hget]

theorem component_ptr_eval_none {e : Engine α} {id : Nat} {act : Bool}
    {t : Nat} {ent : EntityOrName}
    (h1 : e.entity ent = .ok id) (h2 : e.entitiesAt id = .ok act)
    (hm : id ∉ (e.compVec act t).map Prod.fst) :
    e.component_ptr t ent = .ok none := by
  cases hget : (e.compVec act t)[lowerBound (e.compVec act t) id]? with
  | none => simp [Engine.component_ptr, h1, h2, hget]
  | some p =>
    have hne := lowerBound_lookup_of_not_mem _ _ hm p hget
    simp [Engine.component_ptr, h1, h2, hget, hne]

theorem component_eval_some {e : Engine α} (hw : e.WF) {id : Nat} {act : Bool}
    {t : Nat} {ent : EntityOrName} {w : α}
    (h1 : e.entity ent = .ok id) (h2 : e.entitiesAt id = .ok act)
    (hm : (id, w) ∈ e.compVec act t) : e.component t ent = .ok w := by
  simp [Engine.component, component_ptr_eval_some hw h1 h2 hm]

theorem component_eval_none {e : Engine α} {id : Nat} {act : Bool} {t : Nat}
    {ent : EntityOrName}
    (h1 : e.entity ent = .ok id) (h2 : e.entitiesAt id = .ok act)
    (hm : id ∉ (e.compVec act t).map Prod.fst) :
    e.component t ent = .error (.componentNotFound t id) := by
  simp [Engine.component, component_ptr_eval_none h1 h2 hm, h1]

theorem has_component_eval_some {e : Engine α} (hw : e.WF) {id : Nat}
    {act : Bool} {t : Nat} {ent : EntityOrName} {w : α}
    (h1 : e.entity ent = .ok id) (h2 : e.entitiesAt id = .ok act)
    (hm : (id, w) ∈ e.compVec act t) : e.has_component t ent = .ok true := by
  simp [Engine.has_component, component_ptr_eval_some hw h1 h2 hm]

theorem has_component_eval_none {e : Engine α} {id : Nat} {act : Bool}
    {t : Nat} {ent : EntityOrName}
    (h1 : e.entity ent = .ok id) (h2 : e.entitiesAt id = .ok act)
    (hm : id ∉ (e.compVec act t).map Prod.fst) :
    e.has_component t ent = .ok false := by
  simp [Engine.has_component, component_ptr_eval_none h1 h2 hm]

theorem add_component_eval_exists {e : Engine α} (hw : e.WF) {id : Nat}
    {act : Bool} {t : Nat} {ent : EntityOrName} (c : α)
    (h1 : e.entity ent = .ok id) (h2 : e.entitiesAt id = .ok act)
    (hm : id ∈ (e.compVec act t).map Prod.fst) :
    e.add_component t ent c = .error (.componentExists t id) := by
  obtain ⟨w, hw2⟩ := exists_of_mem_keys hm
  have hget := lowerBound_lookup_of_mem _ _ _ (hw.compVecSorted act t) hw2
  simp [Engine.add_component, h1, h2, hget]

theorem add_component_eval_not_exists {e : Engine α} {id : Nat} {act : Bool}
    {t : Nat} {ent : EntityOrName} (c : α)
    (h1 : e.entity ent = .ok id) (h2 : e.entitiesAt id = .ok act)
    (hm : id ∉ (e.compVec act t).map Prod.fst) :
    e.add_component t ent c = .ok (c, e.setCompVec act t
      (insertAt (e.compVec act t) (lowerBound (e.compVec act t) id) (id, c))) := by
  cases hget : (e.compVec act t)[lowerBound (e.compVec act t) id]? with
  | none => simp [Engine.add_component, h1, h2, hget]
  | some p =>
    have hne := lowerBound_lookup_of_not_mem _ _ hm p hget
    simp [Engine.add_component, h1, h2, hget, hne]

theorem remove_component_eval_none {e : Engine α} {id : Nat} {act : Bool}
    {t : Nat} {ent : EntityOrName}
    (h1 : e.entity ent = .ok id) (h2 : e.entitiesAt id = .ok act)
    (hm : id ∉ (e.compVec act t).map Prod.fst) :
    e.remove_component t ent = .error (.componentNotFound t id) := by
  cases hget : (e.compVec act t)[lowerBound (e.compVec act t) id]? with
  | none => simp [Engine.remove_component, h1, h2, hget]
  | some p =>
    have hne := lowerBound_lookup_of_not_mem _ _ hm p hget
    simp [Engine.remove_component, h1, h2, hget, hne]

theorem remove_component_eval_some {e : Engine α} (hw : e.WF) {id : Nat}
    {act : Bool} {t : Nat} {ent : EntityOrName} {w : α}
    (h1 : e.entity ent = .ok id) (h2 : e.entitiesAt id = .ok act)
    (hm : (id, w) ∈ e.compVec act t) :
    e.remove_component t ent = .ok (e.setCompVec act t
      ((e.compVec act t).eraseIdx (lowerBound (e.compVec act t) id))) := by
  have hget := lowerBound_lookup_of_mem _ _ _ (hw.compVecSorted act t) hm
  simp [Engine.remove_component, h1, h2, hget]

theorem component_write_eval_some {e : Engine α} (hw : e.WF) {id : Nat}
    {act : Bool} {t : Nat} {ent : EntityOrName} {w : α} (v : α)
    (h1 : e.entity ent = .ok id) (h2 : e.entitiesAt id = .ok act)
    (hm : (id, w) ∈ e.compVec act t) :
    e.component_write t ent v = .ok (e.setCompVec act t
      ((e.compVec act t).set (lowerBound (e.compVec act t) id) (id, v))) := by
  have hget := lowerBound_lookup_of_mem _ _ _ (hw.compVecSorted act t) hm
  simp [Engine.component_write, h1, h2, hget]

theorem set_entity_active_eval {e : Engine α} {ent : EntityOrName} {id : Nat}
    {b : Bool} (h1 : e.entity ent = .ok id) (h2 : e.entitiesAt id = .ok b)
    (a : Bool) :
    e.set_entity_active ent a =
      .ok { e with entities := mapAssign id a e.entities } := by
  simp [Engine.set_entity_active, h1, h2]

theorem remove_entity_eval {e : Engine α} {ent : EntityOrName} {id : Nat}
    (h1 : e.entity ent = .ok id) :
    e.remove_entity ent = .ok { e with
      entities := mapErase id e.entities
      componentsActive := fun t =>
        (e.componentsActive t).filter (fun p => decide (p.1 ≠ id))
      componentsInactive := fun t =>
        (e.componentsInactive t).filter (fun p => decide (p.1 ≠ id))
      namedEntities := e.namedEntities.filter (fun p => decide (p.2 ≠ id))
      debuggingInfo := mapErase id e.debuggingInfo } := by
  simp [Engine.remove_entity, h1]

/-! ### Further helper lemmas for the claims -/

theorem entitiesAt_find {e : Engine α} {id : Nat} {b : Bool}
    (h : e.entitiesAt id = .ok b) : mapFind? id e.entities = some b := by
  simp only [Engine.entitiesAt] at h
  cases hf : mapFind? id e.entities with
  | none => rw [hf] at h; cases h
  | some c => rw [hf] at h; cases h; rfl

theorem entity_of_entitiesAt {e : Engine α} {id : Nat} {b : Bool}
    (h : e.entitiesAt id = .ok b) : e.entity (.ent id) = .ok id :=
  entity_ent_eval_of_registered (by rw [entitiesAt_find h]; rfl)

theorem remove_entity_ok_entity {e : Engine α} {ent : EntityOrName}
    {e2 : Engine α} (h : e.remove_entity ent = .ok e2) :
    ∃ id, e.entity ent = .ok id := by
  simp only [Engine.remove_entity] at h
  cases h1 : e.entity ent with
  | error err => simp [h1] at h
  | ok id => exact ⟨id, rfl⟩

theorem getElem?_set_of_lookup {v : List β} {i : Nat} {p : β} (x : β)
    (h : v[i]? = some p) : (v.set i x)[i]? = some x := by
  have hi : i < v.length := (List.getElem?_eq_some.mp h).1
  simp [List.getElem?_set_self, hi]

/-- `remove_entity` purges every entry keyed by the removed id out of every
per-type vector, active and inactive. -/
theorem remove_entity_purges {e : Engine α} {ent : EntityOrName} {id : Nat}
    {e2 : Engine α} (h1 : e.entity ent = .ok id)
    (h : e.remove_entity ent = .ok e2) :
    ∀ t : Nat, id ∉ (e2.componentsActive t).map Prod.fst ∧
      id ∉ (e2.componentsInactive t).map Prod.fst := by
  rw [remove_entity_eval h1] at h
  cases h
  intro t
  constructor
  · intro hmem
    obtain ⟨p, hp, hpe⟩ := List.mem_map.mp hmem
    exact absurd hpe (by simpa using (List.mem_filter.mp hp).2)
  · intro hmem
    obtain ⟨p, hp, hpe⟩ := List.mem_map.mp hmem
    exact absurd hpe (by simpa using (List.mem_filter.mp hp).2)

/-- Inserting a missing id at its `lower_bound` point adds exactly one entry
keyed by that id and leaves every other entry in place. -/
theorem insertAt_filter_eq {vec : List (Nat × α)} {id : Nat} (c : α)
    (hm : id ∉ vec.map Prod.fst) :
    (insertAt vec (lowerBound vec id) (id, c)).filter
        (fun p => decide (p.1 = id)) = [(id, c)] ∧
    (insertAt vec (lowerBound vec id) (id, c)).filter
        (fun p => decide (p.1 ≠ id)) = vec := by
  have hvec : ∀ p ∈ vec, p.1 ≠ id := by
    intro p hp hpe
    exact hm (hpe ▸ List.mem_map_of_mem Prod.fst hp)
  rw [insertAt_lowerBound_eq]
  constructor
  · rw [List.filter_append, List.filter_cons, if_pos (by simp)]
    have h1 : (vec.takeWhile (fun p => decide (p.1 < id))).filter
        (fun p => decide (p.1 = id)) = [] := by
      rw [List.filter_eq_nil_iff]
      intro p hp
      simpa using hvec p (List.takeWhile_subset _ hp)
    have h2 : (vec.dropWhile (fun p => decide (p.1 < id))).filter
        (fun p => decide (p.1 = id)) = [] := by
      rw [List.filter_eq_nil_iff]
      intro p hp
      simpa using hvec p (List.dropWhile_subset _ hp)
    rw [h1, h2]
    rfl
  · rw [List.filter_append, List.filter_cons, if_neg (by simp)]
    have h1 : (vec.takeWhile (fun p => decide (p.1 < id))).filter
        (fun p => decide (p.1 ≠ id)) = vec.takeWhile (fun p => decide (p.1 < id)) := by
      rw [List.filter_eq_self]
      intro p hp
      simpa using hvec p (List.takeWhile_subset _ hp)
    have h2 : (vec.dropWhile (fun p => decide (p.1 < id))).filter
        (fun p => decide (p.1 ≠ id)) = vec.dropWhile (fun p => decide (p.1 < id)) := by
      rw [List.filter_eq_self]
      intro p hp
      simpa using hvec p (List.dropWhile_subset _ hp)
    rw [h1, h2, List.takeWhile_append_dropWhile]

theorem mem_insertAt_self (vec : List (Nat × α)) (id : Nat) (c : α) :
    (id, c) ∈ insertAt vec (lowerBound vec id) (id, c) := by
  rw [insertAt_lowerBound_eq]
  exact List.mem_append.mpr (.inr (List.mem_cons_self _ _))

/-! ### The claims -/

/-- A small concrete store exercising the claim theorems: after these public
calls, entity 0 carries components of types 0 and 1, entity 1 carries a
component of type 0, all active. -/
def sampleOps : List (Op Nat) :=
  [.addEntity none, .addEntity none, .addComp 0 (.ent 0) 5,
    .addComp 1 (.ent 0) 6, .addComp 0 (.ent 1) 7]

/-- The store reached by running `sampleOps` on a fresh engine. -/
def sampleEngine : Engine Nat := Engine.run emptyEngine sampleOps

/-- C1: for every reachable store state and every component type, after any
sequence of `add_component`, `remove_component` or `remove_entity` calls the
per-type association vector for that type — the active as well as the
inactive one — is sorted strictly ascending by entity id and holds at most
one entry per id; moreover the point every mutation uses to insert or erase,
`lowerBound` (the model of the `std::lower_bound` binary search), is the
first position of the vector whose key is not below the searched id. -/
theorem claim1_sorted_invariant {α : Type} (e : Engine α) (h : Reachable e) :
    ∀ t : Nat,
      sortedKeys (e.componentsActive t) ∧
      sortedKeys (e.componentsInactive t) ∧
      ((e.componentsActive t).map Prod.fst).Nodup ∧
      ((e.componentsInactive t).map Prod.fst).Nodup ∧
      (∀ (id : Nat) (act : Bool),
        lowerBound (e.compVec act t) id ≤ (e.compVec act t).length ∧
        (∀ j p, j < lowerBound (e.compVec act t) id →
          (e.compVec act t)[j]? = some p → p.1 < id) ∧
        (∀ p, (e.compVec act t)[lowerBound (e.compVec act t) id]? = some p →
          id ≤ p.1)) := by
  have hw := h.wf
  intro t
  exact ⟨hw.activeKeys t, hw.inactiveKeys t,
    (hw.activeKeys t).imp Nat.ne_of_lt, (hw.inactiveKeys t).imp Nat.ne_of_lt,
    fun id act => ⟨lowerBound_le_length _ _, lowerBound_before_lt _ _,
      lowerBound_at_ge _ _⟩⟩

/-- C1 instantiated on the concrete sample store. -/
theorem claim1_witness :
    Reachable sampleEngine ∧ sortedKeys (sampleEngine.componentsActive 0) :=
  ⟨⟨sampleOps, rfl⟩, (claim1_sorted_invariant sampleEngine ⟨sampleOps, rfl⟩ 0).1⟩

/-- C2: for every reachable store state and every non-empty list of component
types, the ids visited by the query (`forEachIds`, the modelled `for_each`)
are exactly the set intersection of the ids owning each listed type; the
visited set is invariant under permuting the type list, and under replacing
the store by any other reachable store whose per-type key sets agree
elementwise (insertion-order independence: the sorted vectors admit exactly
one layout per key set). -/
theorem claim2_for_each_intersection {α : Type} (e : Engine α)
    (h : Reachable e) (ts : List Nat) (hts : ts ≠ []) :
    (∀ x : Nat, x ∈ e.forEachIds ts ↔
      ∀ t ∈ ts, x ∈ (e.componentsActive t).map Prod.fst) ∧
    (∀ ts2 : List Nat, ts.Perm ts2 →
      ∀ x : Nat, (x ∈ e.forEachIds ts ↔ x ∈ e.forEachIds ts2)) ∧
    (∀ e2 : Engine α, Reachable e2 →
      (∀ t ∈ ts, ∀ x : Nat, (x ∈ (e2.componentsActive t).map Prod.fst ↔
        x ∈ (e.componentsActive t).map Prod.fst)) →
      ∀ x : Nat, (x ∈ e2.forEachIds ts ↔ x ∈ e.forEachIds ts)) := by
  have hmain : ∀ e3 : Engine α, e3.WF → ∀ ts3 : List Nat, ts3 ≠ [] →
      ∀ x : Nat, (x ∈ e3.forEachIds ts3 ↔
        ∀ t ∈ ts3, x ∈ (e3.componentsActive t).map Prod.fst) := by
    intro e3 hw3 ts3 hts3 x
    rw [Engine.forEachIds, mem_intersectSorted _ (by simpa using hts3)
      (by
        intro l hl
        obtain ⟨t, ht, rfl⟩ := List.mem_map.mp hl
        exact hw3.activeKeys t)]
    constructor
    · intro hx t ht
      exact hx _ (List.mem_map_of_mem _ ht)
    · intro hx l hl
      obtain ⟨t, ht, rfl⟩ := List.mem_map.mp hl
      exact hx t ht
  refine ⟨hmain e h.wf ts hts, ?_, ?_⟩
  · intro ts2 hperm x
    have hts2 : ts2 ≠ [] := by
      intro h0
      rw [h0] at hperm
      exact hts hperm.eq_nil
    rw [hmain e h.wf ts hts x, hmain e h.wf ts2 hts2 x]
    constructor
    · intro hx t ht
      exact hx t (hperm.mem_iff.mpr ht)
    · intro hx t ht
      exact hx t (hperm.mem_iff.mp ht)
  · intro e2 h2 hagree x
    rw [hmain e h.wf ts hts x, hmain e2 h2.wf ts hts x]
    constructor
    · intro hx t ht
      exact (hagree t ht x).mp (hx t ht)
    · intro hx t ht
      exact (hagree t ht x).mpr (hx t ht)

/-- C2 instantiated on the concrete sample store, over types 0 and 1. -/
theorem claim2_witness :
    Reachable sampleEngine ∧ ([0, 1] : List Nat) ≠ [] ∧
    (∀ x : Nat, x ∈ sampleEngine.forEachIds [0, 1] ↔
      ∀ t ∈ ([0, 1] : List Nat),
        x ∈ (sampleEngine.componentsActive t).map Prod.fst) :=
  ⟨⟨sampleOps, rfl⟩, by decide,
    (claim2_for_each_intersection sampleEngine ⟨sampleOps, rfl⟩ [0, 1]
      (by decide)).1⟩

/-- C3: for a registered entity and a component type, if the entity already
has that component then `add_component` fails with the AlreadyExists error
and the engine — in particular the association vectors and their stored
values — is left unchanged (no overwrite); otherwise exactly one `(id, v)`
entry is inserted (every other entry kept verbatim) and the stored value is
returned. -/
theorem claim3_add_component {α : Type} (e : Engine α) (h : Reachable e)
    (t : Nat) (ent : EntityOrName) (id : Nat) (act : Bool) (v : α)
    (h1 : e.entity ent = .ok id) (h2 : e.entitiesAt id = .ok act) :
    (id ∈ (e.compVec act t).map Prod.fst →
      e.add_component t ent v = .error (.componentExists t id) ∧
      e.step (.addComp t ent v) = e) ∧
    (id ∉ (e.compVec act t).map Prod.fst →
      ∃ e2, e.add_component t ent v = .ok (v, e2) ∧
        (e2.compVec act t).filter (fun p => decide (p.1 = id)) = [(id, v)] ∧
        (e2.compVec act t).filter (fun p => decide (p.1 ≠ id)) =
          e.compVec act t) := by
  constructor
  · intro hm
    have heval := add_component_eval_exists h.wf v h1 h2 hm
    exact ⟨heval, by simp [Engine.step, heval]⟩
  · intro hm
    have heval := add_component_eval_not_exists v h1 h2 hm
    refine ⟨_, heval, ?_, ?_⟩
    · rw [compVec_setCompVec_self]
      exact (insertAt_filter_eq v hm).1
    · rw [compVec_setCompVec_self]
      exact (insertAt_filter_eq v hm).2

/-- C3 instantiated on the concrete sample store (the AlreadyExists branch:
entity 0 already has a type-0 component). -/
theorem claim3_witness :
    Reachable sampleEngine ∧
    sampleEngine.entity (.ent 0) = .ok 0 ∧
    sampleEngine.entitiesAt 0 = .ok true ∧
    ((0 : Nat) ∈ ((sampleEngine.compVec true 0).map Prod.fst) →
      sampleEngine.add_component 0 (.ent 0) 9 =
        .error (.componentExists 0 0) ∧
      sampleEngine.step (.addComp 0 (.ent 0) 9) = sampleEngine) :=
  ⟨⟨sampleOps, rfl⟩, rfl, rfl,
    (claim3_add_component sampleEngine ⟨sampleOps, rfl⟩ 0 (.ent 0) 0 true 9
      rfl rfl).1⟩

/-- C4: after a successful `remove_entity(id)`, every subsequent `component`,
`component_ptr` and `has_component` call against that id fails with the
NotFound error — the id is gone from the registry, so the entity's former
component data can never be returned. -/
theorem claim4_removed_entity_not_found {α : Type} (e : Engine α)
    (h : Reachable e) (id : Nat) (e2 : Engine α)
    (hrem : e.remove_entity (.ent id) = .ok e2) :
    ∀ t : Nat, e2.component t (.ent id) = .error (.entityNotFound id) ∧
      e2.has_component t (.ent id) = .error (.entityNotFound id) ∧
      e2.component_ptr t (.ent id) = .error (.entityNotFound id) := by
  obtain ⟨id2, hid2⟩ := remove_entity_ok_entity hrem
  have heq := entity_ent_ok hid2
  subst heq
  rw [remove_entity_eval hid2] at hrem
  cases hrem
  have hfind : mapFind? id2 (mapErase id2 e.entities) = none :=
    mapFind?_mapErase_self id2 e.entities (h.wf.entKeys.imp Nat.ne_of_lt)
  intro t
  exact ⟨component_entity_error (entity_ent_eval_none hfind),
    has_component_entity_error (entity_ent_eval_none hfind),
    component_ptr_entity_error (entity_ent_eval_none hfind)⟩

/-- C4 instantiated on the concrete sample store. -/
theorem claim4_witness :
    Reachable sampleEngine ∧
    sampleEngine.remove_entity (.ent 0) =
      .ok (sampleEngine.step (.removeEntity (.ent 0))) ∧
    (sampleEngine.step (.removeEntity (.ent 0))).component 0 (.ent 0) =
      .error (.entityNotFound 0) :=
  ⟨⟨sampleOps, rfl⟩, rfl,
    ((claim4_removed_entity_not_found sampleEngine ⟨sampleOps, rfl⟩ 0 _ rfl)
      0).1⟩

/-- C5 counterexample: the claim asserts that for some sequence of public
calls a successful `remove_entity(id)` leaves at least one per-type
association vector still containing an entry keyed by `id`. In fact
`remove_entity` (fastecs.hh lines 352-357) filters every entry with that id
out of every per-type vector, active and inactive, so no sequence of
operations can exhibit this: the claim, as stated, is false. -/
theorem claim5_counterexample :
    ¬ ∃ (ops : List (Op Nat)) (id : Nat) (e2 : Engine Nat),
        (Engine.run emptyEngine ops).remove_entity (.ent id) = .ok e2 ∧
        ∃ t : Nat, id ∈ (e2.componentsActive t).map Prod.fst ∨
          id ∈ (e2.componentsInactive t).map Prod.fst := by
  rintro ⟨ops, id, e2, hrem, t, hmem⟩
  obtain ⟨id2, hid2⟩ := remove_entity_ok_entity hrem
  have heq := entity_ent_ok hid2
  subst heq
  rcases hmem with hmem | hmem
  · exact (remove_entity_purges hid2 hrem t).1 hmem
  · exact (remove_entity_purges hid2 hrem t).2 hmem

/-- C5 amended: removing an entity removes it from the registry AND is
guaranteed to purge its entries from every per-type association vector,
active and inactive — no orphaned entries remain. -/
theorem claim5_amended {α : Type} (e : Engine α) (h : Reachable e) (id : Nat)
    (e2 : Engine α) (hrem : e.remove_entity (.ent id) = .ok e2) :
    id ∉ e2.entities.map Prod.fst ∧
    ∀ t : Nat, id ∉ (e2.componentsActive t).map Prod.fst ∧
      id ∉ (e2.componentsInactive t).map Prod.fst := by
  obtain ⟨id2, hid2⟩ := remove_entity_ok_entity hrem
  have heq := entity_ent_ok hid2
  subst heq
  refine ⟨?_, remove_entity_purges hid2 hrem⟩
  rw [remove_entity_eval hid2] at hrem
  cases hrem
  exact (mapFind?_eq_none id2 _).mp
    (mapFind?_mapErase_self id2 e.entities (h.wf.entKeys.imp Nat.ne_of_lt))

/-- C5 amended, instantiated on the concrete sample store. -/
theorem claim5_witness :
    Reachable sampleEngine ∧
    sampleEngine.remove_entity (.ent 0) =
      .ok (sampleEngine.step (.removeEntity (.ent 0))) ∧
    (0 : Nat) ∉
      ((sampleEngine.step (.removeEntity (.ent 0))).componentsActive 0).map
        Prod.fst :=
  ⟨⟨sampleOps, rfl⟩, rfl,
    ((claim5_amended sampleEngine ⟨sampleOps, rfl⟩ 0 _ rfl).2 0).1⟩

/-- C6: for a registered entity and a component type, when the component is
absent `component` fails with the NotFound error and `remove_component` fails
with the NotFound error leaving every component vector (indeed the whole
engine) unchanged; when it is present, `component` returns the stored value
and `remove_component` erases exactly that one entry, touching nothing
else. -/
theorem claim6_component_lookup {α : Type} (e : Engine α) (h : Reachable e)
    (t : Nat) (ent : EntityOrName) (id : Nat) (act : Bool)
    (h1 : e.entity ent = .ok id) (h2 : e.entitiesAt id = .ok act) :
    (id ∉ (e.compVec act t).map Prod.fst →
      e.component t ent = .error (.componentNotFound t id) ∧
      e.remove_component t ent = .error (.componentNotFound t id) ∧
      e.step (.removeComp t ent) = e) ∧
    (id ∈ (e.compVec act t).map Prod.fst →
      ∃ w, (id, w) ∈ e.compVec act t ∧ e.component t ent = .ok w ∧
        ∃ e2, e.remove_component t ent = .ok e2 ∧
          e2.compVec act t =
            (e.compVec act t).filter (fun p => decide (p.1 ≠ id)) ∧
          (∀ u : Nat, e2.compVec (!act) u = e.compVec (!act) u)) := by
  constructor
  · intro hm
    have hrc := remove_component_eval_none h1 h2 hm
    exact ⟨component_eval_none h1 h2 hm, hrc,
      by simp [Engine.step, orKeep, hrc]⟩
  · intro hm
    obtain ⟨w, hmem⟩ := exists_of_mem_keys hm
    have hrc := remove_component_eval_some h.wf h1 h2 hmem
    have hget := lowerBound_lookup_of_mem _ _ _ (h.wf.compVecSorted act t) hmem
    refine ⟨w, hmem, component_eval_some h.wf h1 h2 hmem, _, hrc, ?_, ?_⟩
    · rw [compVec_setCompVec_self]
      exact eraseIdx_lowerBound_eq_filter _ _ _ (h.wf.compVecSorted act t)
        hget rfl
    · intro u
      exact compVec_setCompVec_other e act t _ u

/-- C6 instantiated on the concrete sample store (the NotFound branch:
entity 0 has no type-2 component). -/
theorem claim6_witness :
    Reachable sampleEngine ∧
    sampleEngine.entity (.ent 0) = .ok 0 ∧
    sampleEngine.entitiesAt 0 = .ok true ∧
    ((0 : Nat) ∉ ((sampleEngine.compVec true 2).map Prod.fst) →
      sampleEngine.component 2 (.ent 0) = .error (.componentNotFound 2 0) ∧
      sampleEngine.remove_component 2 (.ent 0) =
        .error (.componentNotFound 2 0) ∧
      sampleEngine.step (.removeComp 2 (.ent 0)) = sampleEngine) :=
  ⟨⟨sampleOps, rfl⟩, rfl, rfl,
    (claim6_component_lookup sampleEngine ⟨sampleOps, rfl⟩ 2 (.ent 0) 0 true
      rfl rfl).1⟩

/-- C7: round trip — adding a missing component to a registered entity
succeeds returning the added value, an immediate fetch returns a value equal
to it, and a mutation written through the reference (modelled by
`component_write`, which overwrites the slot the reference denotes) is
visible to the next fetch. -/
theorem claim7_round_trip {α : Type} (e : Engine α) (h : Reachable e)
    (t : Nat) (ent : EntityOrName) (id : Nat) (act : Bool) (v : α)
    (h1 : e.entity ent = .ok id) (h2 : e.entitiesAt id = .ok act)
    (hnot : id ∉ (e.compVec act t).map Prod.fst) :
    ∃ e2, e.add_component t ent v = .ok (v, e2) ∧
      e2.component t ent = .ok v ∧
      ∀ w e3, e2.component_write t ent w = .ok e3 →
        e3.component t ent = .ok w := by
  have heval := add_component_eval_not_exists v h1 h2 hnot
  have hw2 : (e.setCompVec act t (insertAt (e.compVec act t)
      (lowerBound (e.compVec act t) id) (id, v))).WF :=
    WF_add_component h.wf heval
  have h1b : (e.setCompVec act t (insertAt (e.compVec act t)
      (lowerBound (e.compVec act t) id) (id, v))).entity ent = .ok id := by
    rw [entity_setCompVec]
    exact h1
  have h2b : (e.setCompVec act t (insertAt (e.compVec act t)
      (lowerBound (e.compVec act t) id) (id, v))).entitiesAt id = .ok act := by
    rw [entitiesAt_setCompVec]
    exact h2
  have hmem : (id, v) ∈ (e.setCompVec act t (insertAt (e.compVec act t)
      (lowerBound (e.compVec act t) id) (id, v))).compVec act t := by
    rw [compVec_setCompVec_self]
    exact mem_insertAt_self _ _ _
  refine ⟨_, heval, component_eval_some hw2 h1b h2b hmem, ?_⟩
  intro w e3 hwr
  have hw3 : e3.WF := WF_component_write hw2 hwr
  have hget := lowerBound_lookup_of_mem _ _ _ (hw2.compVecSorted act t) hmem
  rw [component_write_eval_some hw2 w h1b h2b hmem] at hwr
  cases hwr
  have h1c : ((e.setCompVec act t (insertAt (e.compVec act t)
      (lowerBound (e.compVec act t) id) (id, v))).setCompVec act t
      (((e.setCompVec act t (insertAt (e.compVec act t)
        (lowerBound (e.compVec act t) id) (id, v))).compVec act t).set
        (lowerBound ((e.setCompVec act t (insertAt (e.compVec act t)
          (lowerBound (e.compVec act t) id) (id, v))).compVec act t) id)
        (id, w))).entity ent = .ok id := by
    rw [entity_setCompVec]
    exact h1b
  have h2c : ((e.setCompVec act t (insertAt (e.compVec act t)
      (lowerBound (e.compVec act t) id) (id, v))).setCompVec act t
      (((e.setCompVec act t (insertAt (e.compVec act t)
        (lowerBound (e.compVec act t) id) (id, v))).compVec act t).set
        (lowerBound ((e.setCompVec act t (insertAt (e.compVec act t)
          (lowerBound (e.compVec act t) id) (id, v))).compVec act t) id)
        (id, w))).entitiesAt id = .ok act := by
    rw [entitiesAt_setCompVec]
    exact h2b
  have hmemc : (id, w) ∈ ((e.setCompVec act t (insertAt (e.compVec act t)
      (lowerBound (e.compVec act t) id) (id, v))).setCompVec act t
      (((e.setCompVec act t (insertAt (e.compVec act t)
        (lowerBound (e.compVec act t) id) (id, v))).compVec act t).set
        (lowerBound ((e.setCompVec act t (insertAt (e.compVec act t)
          (lowerBound (e.compVec act t) id) (id, v))).compVec act t) id)
        (id, w))).compVec act t := by
    rw [compVec_setCompVec_self]
    exact List.getElem?_mem (getElem?_set_of_lookup (id, w) hget)
  exact component_eval_some hw3 h1c h2c hmemc

/-- C7 instantiated on the concrete sample store (entity 1 has no type-1
component). -/
theorem claim7_witness :
    Reachable sampleEngine ∧
    sampleEngine.entity (.ent 1) = .ok 1 ∧
    sampleEngine.entitiesAt 1 = .ok true ∧
    (1 : Nat) ∉ ((sampleEngine.compVec true 1).map Prod.fst) ∧
    ∃ e2, sampleEngine.add_component 1 (.ent 1) 42 = .ok (42, e2) ∧
      e2.component 1 (.ent 1) = .ok 42 ∧
      ∀ w e3, e2.component_write 1 (.ent 1) w = .ok e3 →
        e3.component 1 (.ent 1) = .ok w :=
  ⟨⟨sampleOps, rfl⟩, rfl, rfl, by decide,
    claim7_round_trip sampleEngine ⟨sampleOps, rfl⟩ 1 (.ent 1) 1 true 42
      rfl rfl (by decide)⟩

/-- C8: for every sequence of `send_event` calls against an initially empty
queue and every message case, the type-filtered read `event_queue` returns
exactly the payloads of the queued messages of that case, in submission
order — messages of other cases are skipped, nothing is reordered. -/
theorem claim8_event_queue_filter {β : Type} (msgs : List (Nat × β))
    (t : Nat) :
    event_queue t (List.foldl send_event [] msgs) =
      (msgs.filter (fun m => decide (m.1 = t))).map Prod.snd := by
  rw [foldl_send_event msgs [], List.nil_append, event_queue_eq_filter_map]

/-- C9 counterexample: `_next_entity_id` is a `size_t` and wraps modulo
`2^64`, so the `add_entity` call made after `2^64` previous calls returns
id 0 again — the very id the first call returned. Ids are therefore not
strictly increasing and not unreused over the store's whole lifetime, which
falsifies the claim as stated. -/
theorem claim9_counterexample :
    ((addNTimes (emptyEngine : Engine Nat) sizeTMod).add_entity none).1 = 0 ∧
    ((emptyEngine : Engine Nat).add_entity none).1 = 0 := by
  constructor
  · have h0 : (emptyEngine : Engine Nat).nextEntityId < sizeTMod := by
      show 0 < sizeTMod
      norm_num [sizeTMod]
    rw [addNTimes_add_entity_fst, addNTimes_nextEntityId _ h0 sizeTMod]
    show (0 + sizeTMod) % sizeTMod = 0
    simp
  · rfl

/-- C9 amended: every `add_entity` call returns an id strictly greater than
every id previously returned by the same store — ids unique, monotonically
increasing, never reused even after arbitrary `remove_entity` calls —
provided the total number of `add_entity` calls over the store's lifetime
does not exceed `2^64` (beyond that the `size_t` counter wraps, as the
counterexample shows). -/
theorem claim9_amended (ops : List (Op Nat))
    (h : countAdds ops ≤ sizeTMod) :
    List.Pairwise (fun a b => a < b) (minted emptyEngine ops) ∧
    (minted emptyEngine ops).Nodup := by
  have hm := minted_pairwise_lt ops emptyEngine
    (by simpa [emptyEngine] using h)
  exact ⟨hm.1, hm.1.imp Nat.ne_of_lt⟩

/-- C9 amended, instantiated on a concrete trace: three mints with a
`remove_entity` in between yield the ids 0, 1, 2 — increasing, unique, and
the removed id 0 is not reused. -/
theorem claim9_witness :
    countAdds ([.addEntity none, .addEntity none, .removeEntity (.ent 0),
      .addEntity none] : List (Op Nat)) ≤ sizeTMod ∧
    minted emptyEngine ([.addEntity none, .addEntity none,
      .removeEntity (.ent 0), .addEntity none] : List (Op Nat)) = [0, 1, 2] ∧
    List.Pairwise (fun a b => a < b) (minted emptyEngine
      ([.addEntity none, .addEntity none, .removeEntity (.ent 0),
        .addEntity none] : List (Op Nat))) :=
  ⟨by decide, by decide, (claim9_amended _ (by decide)).1⟩

/-- C10: the component operations consult only the vector selected by the
entity's current active flag. Consequently, for an entity whose component of
some type lives (only) in the active vector, after `set_entity_active(id,
false)` the call `has_component` returns false and `component` fails with
the NotFound error even though the entry still resides in the active vector;
and a component then added while inactive is stored in the separate inactive
vector, leaving the active one untouched. -/
theorem claim10_active_flag {α : Type} (e : Engine α) (h : Reachable e)
    (t : Nat) (id : Nat) (w : α)
    (hact : e.entitiesAt id = .ok true)
    (hmem : (id, w) ∈ e.compVec true t)
    (hnot : id ∉ (e.compVec false t).map Prod.fst) :
    ∃ e2, e.set_entity_active (.ent id) false = .ok e2 ∧
      e2.has_component t (.ent id) = .ok false ∧
      e2.component t (.ent id) = .error (.componentNotFound t id) ∧
      (id, w) ∈ e2.componentsActive t ∧
      (∀ v : α, ∃ e3, e2.add_component t (.ent id) v = .ok (v, e3) ∧
        id ∈ (e3.componentsInactive t).map Prod.fst ∧
        e3.componentsActive t = e2.componentsActive t) := by
  have h1 : e.entity (.ent id) = .ok id := entity_of_entitiesAt hact
  have heval := set_entity_active_eval h1 hact false
  have hsome : (mapFind? id e.entities).isSome := by
    rw [entitiesAt_find hact]
    rfl
  have h2b : Engine.entitiesAt
      { e with entities := mapAssign id false e.entities } id = .ok false := by
    simp [Engine.entitiesAt, mapFind?_mapAssign_self id false e.entities hsome]
  have h1b : Engine.entity
      { e with entities := mapAssign id false e.entities } (.ent id) =
      .ok id := entity_of_entitiesAt h2b
  refine ⟨{ e with entities := mapAssign id false e.entities }, heval,
    has_component_eval_none h1b h2b hnot,
    component_eval_none h1b h2b hnot, hmem, ?_⟩
  intro v
  refine ⟨_, add_component_eval_not_exists v h1b h2b hnot, ?_, ?_⟩
  · rw [setCompVec_false_componentsInactive]
    simp only [if_pos rfl]
    simpa using List.mem_map_of_mem Prod.fst
      (mem_insertAt_self (Engine.compVec
        { e with entities := mapAssign id false e.entities } false t) id v)
  · rw [setCompVec_false_componentsActive]

/-- C10 instantiated on the concrete sample store: entity 0's type-0
component, added while active, becomes invisible after deactivation though
its entry stays in the active vector. -/
theorem claim10_witness :
    Reachable sampleEngine ∧
    sampleEngine.entitiesAt 0 = .ok true ∧
    ((0, 5) : Nat × Nat) ∈ sampleEngine.compVec true 0 ∧
    (0 : Nat) ∉ ((sampleEngine.compVec false 0).map Prod.fst) ∧
    ∃ e2, sampleEngine.set_entity_active (.ent 0) false = .ok e2 ∧
      e2.has_component 0 (.ent 0) = .ok false ∧
      e2.component 0 (.ent 0) = .error (.componentNotFound 0 0) ∧
      ((0, 5) : Nat × Nat) ∈ e2.componentsActive 0 ∧
      (∀ v : Nat, ∃ e3, e2.add_component 0 (.ent 0) v = .ok (v, e3) ∧
        0 ∈ (e3.componentsInactive 0).map Prod.fst ∧
        e3.componentsActive 0 = e2.componentsActive 0) :=
  ⟨⟨sampleOps, rfl⟩, rfl, by decide, by decide,
    claim10_active_flag sampleEngine ⟨sampleOps, rfl⟩ 0 0 5 rfl (by decide)
      (by decide)⟩

end FastECS
